import Mathlib

/-!
Verification of the philparse document-to-graph pipeline.

This file shallowly embeds the core of the repository — the graph
constructor with its ontology pruning (`src/graph/construct_graph.py`),
the token-bucket rate limiter (`src/llm/llm_client.py`), and the
structural parser's normalization, chapter filtering, end-section
discovery and atom decomposition (`src/preprocessing/parse.py`) — and
proves or refutes the specification claims about them.

Python strings are modelled as `List Char` (the type `Str` below) when
character-level work is needed, and as Lean `String` where only equality
matters.  Python dicts are modelled as association lists where a lookup
returns the value of the *last* binding of a key, matching insertion
semantics.  Python floats (the rate limiter) are modelled as exact
rationals.  The external sentence tokenizer (`nltk.sent_tokenize`) and
the external LLM are parameters of the embedding.  Regular-expression
scanning loops are implemented with an explicit fuel argument (always
called with fuel larger than the text length) so that every definition
is executable by the kernel.
-/

/-- Python strings at character level. -/
abbrev Str := List Char

/-- Python dict lookup: the value of the last binding of `k`, if any.
Models `d.get(k)` for a dict built by inserting the list in order. -/
def dictGet {α : Type} (d : List (String × α)) (k : String) : Option α :=
  (d.reverse.find? (fun p => p.1 == k)).map (·.2)

/-- Membership test for a modelled dict (`k in d`). -/
def dictHas {α : Type} (d : List (String × α)) (k : String) : Bool :=
  (dictGet d k).isSome

/-- The whitespace characters of Python's `str.strip` / regex `\s`
(ASCII fragment; the repository's inputs are ASCII-oriented OCR text). -/
def isPyWs (c : Char) : Bool :=
  c == ' ' || c == '\t' || c == '\n' || c == '\r' ||
  c == Char.ofNat 11 || c == Char.ofNat 12

/-- `str.lstrip()` on characters. -/
def pyLStrip (s : Str) : Str := s.dropWhile isPyWs

/-- `str.rstrip()` on characters. -/
def pyRStrip (s : Str) : Str := (s.reverse.dropWhile isPyWs).reverse

/-- `str.strip()` on characters. -/
def pyStrip (s : Str) : Str := pyRStrip (pyLStrip s)

/-- Python slicing `s[a:b]` (with `0 ≤ a ≤ b` in our uses). -/
def pySlice (s : Str) (a b : Nat) : Str := (s.take b).drop a

/-- ASCII lower-casing, as used by `str.lower()` on the headings here. -/
def lowerChar (c : Char) : Char :=
  if 'A' ≤ c && c ≤ 'Z' then Char.ofNat (c.toNat + 32) else c

/-- `str.lower()` on characters. -/
def lowerStr (s : Str) : Str := s.map lowerChar

/-- `str.isspace()`: nonempty and all whitespace. -/
def pyIsSpace (s : Str) : Bool := !s.isEmpty && s.all isPyWs

/-- ASCII decimal digit test (regex `\d`). -/
def isDigitChar (c : Char) : Bool := '0' ≤ c && c ≤ '9'

/-! ## Graph constructor data model (`src/graph/construct_graph.py`)

A component is one annotated atom as assembled by
`GraphConstructor._process_chapter` (lines 125–131 / 163–169); a
relationship is one entry of the classifier's `relationships` array.
The ontology and taxonomy JSON resources are parameters. -/

/-- One proposed relationship attached to a component. -/
structure Relationship where
  target_id : String
  type : String
  direction : String
  justification : String
deriving Repr, DecidableEq

/-- One annotated atom (graph node candidate), as built in
`_process_chapter`.  `section_id := none` models the `None` of
chapter-level atoms; offsets keep the `-1` defaults of
`atom.get("start_offset", -1)`. -/
structure Component where
  id : String
  chapter_title : String
  section_id : Option Nat
  paragraph_id : Nat
  text : String
  start_offset : Int
  end_offset : Int
  classification : String
  relationships : List Relationship
deriving Repr, DecidableEq

/-- A graph value `{"document_title": ..., "components": [...]}`. -/
structure Graph where
  document_title : String
  components : List Component
deriving Repr, DecidableEq

/-- One rule of `ontology.json`: `{"valid_sources": [...], "valid_targets": [...]}`. -/
structure Rule where
  valid_sources : List String
  valid_targets : List String
deriving Repr, DecidableEq

/-- The relationship-filter of pruning pass 1 (construct_graph.py lines
321–340): keep a relationship iff its target is a known component id,
its direction is `outgoing`/`incoming`, and its type is a known rule. -/
def pass1RelOk (rules : List (String × Rule)) (componentIds : List String)
    (r : Relationship) : Bool :=
  componentIds.contains r.target_id &&
  (r.direction == "outgoing" || r.direction == "incoming") &&
  dictHas rules r.type

/-- Pruning pass 1 for one component (construct_graph.py lines 307–344):
drop the component unless its classification is a valid class, and filter
its relationships by `pass1RelOk`. -/
def pass1Component (validClasses : List String) (rules : List (String × Rule))
    (componentIds : List String) (c : Component) : Option Component :=
  if validClasses.contains c.classification then
    some { c with relationships := c.relationships.filter (pass1RelOk rules componentIds) }
  else
    none

/-- The relationship-filter of pruning pass 2 (construct_graph.py lines
350–385): re-check the target against the surviving ids, look up the
target's classification (`if not target_class: continue` models Python's
falsiness of the empty string), and check the ontology rule for the
relationship's direction. -/
def pass2RelOk (rules : List (String × Rule)) (validComponentIds : List String)
    (classificationMap : List (String × String)) (sourceClass : String)
    (r : Relationship) : Bool :=
  if !(validComponentIds.contains r.target_id) then false
  else
    match dictGet classificationMap r.target_id with
    | none => false
    | some targetClass =>
      if targetClass == "" then false
      else
        match dictGet rules r.type with
        | none => false
        | some rule =>
          if r.direction == "outgoing" then
            rule.valid_sources.contains sourceClass && rule.valid_targets.contains targetClass
          else if r.direction == "incoming" then
            rule.valid_sources.contains targetClass && rule.valid_targets.contains sourceClass
          else false

/-- Pruning pass 1 over the component list: `component_ids` is the id
set of the *input* components (construct_graph.py line 301). -/
def pass1List (validClasses : List String) (rules : List (String × Rule))
    (comps : List Component) : List Component :=
  comps.filterMap (pass1Component validClasses rules (comps.map (·.id)))

/-- Pruning pass 2 over the surviving components: `valid_component_ids`
and `classification_map` are built from the input list (construct_graph.py
lines 317 and 347). -/
def pass2List (rules : List (String × Rule)) (comps : List Component) : List Component :=
  comps.map (fun c =>
    { c with relationships := c.relationships.filter (pass2RelOk rules (comps.map (·.id)) (comps.map (fun d => (d.id, d.classification))) c.classification) })

/-- `GraphConstructor.prune_by_ontology` (construct_graph.py lines
279–390) with the loaded `taxonomy["valid_classes"]` and
`ontology["relationships"]` passed as parameters. -/
def prune_by_ontology (validClasses : List String) (rules : List (String × Rule))
    (g : Graph) : Graph :=
  { document_title := g.document_title,
    components := pass2List rules (pass1List validClasses rules g.components) }

/-! ## Edge materialization (`get_relationships_from_graph`) -/

/-- One relationship record prepared for the database
(construct_graph.py lines 447–453). -/
structure RelRecord where
  document_id : Nat
  source_atom_id : Nat
  target_atom_id : Nat
  type : String
  justification : String
deriving Repr, DecidableEq

/-- The dedup key `(source, target, type)` of a record. -/
def relTriple (r : RelRecord) : Nat × Nat × String :=
  (r.source_atom_id, r.target_atom_id, r.type)

/-- Materialize the relationships of one component
(construct_graph.py lines 425–454): canonicalize direction by swapping
source and target on `incoming`, drop unknown directions and endpoints
missing from `atom_id_map`. -/
def materializeComponent (atomIdMap : List (String × Nat)) (documentId : Nat)
    (c : Component) : List RelRecord :=
  c.relationships.filterMap (fun rel =>
    let sourceTarget : Option (String × String) :=
      if rel.direction == "outgoing" then some (c.id, rel.target_id)
      else if rel.direction == "incoming" then some (rel.target_id, c.id)
      else none
    match sourceTarget with
    | none => none
    | some (sg, tg) =>
      match dictGet atomIdMap sg, dictGet atomIdMap tg with
      | some s, some t =>
        some { document_id := documentId, source_atom_id := s, target_atom_id := t,
               type := rel.type, justification := rel.justification }
      | _, _ => none)

/-- The dedup loop of `get_relationships_from_graph` (lines 457–464):
keep the first record of each `(source, target, type)` triple. -/
def dedupRecords : List RelRecord → List (Nat × Nat × String) → List RelRecord
  | [], _ => []
  | r :: rest, seen =>
    if seen.contains (relTriple r) then dedupRecords rest seen
    else r :: dedupRecords rest (relTriple r :: seen)

/-- `GraphConstructor.get_relationships_from_graph`
(construct_graph.py lines 421–466). -/
def get_relationships_from_graph (g : Graph) (documentId : Nat)
    (atomIdMap : List (String × Nat)) : List RelRecord :=
  dedupRecords (g.components.flatMap (materializeComponent atomIdMap documentId)) []

/-! ## Graph construction (`build_graph`)

The thread pools of `build_graph` collect futures in submission order
(construct_graph.py lines 188–195 and 250–257), so the component list is
the sequential concatenation in chapter order, chapter-level paragraphs
first and then subsections in order.  The LLM client is a parameter. -/

/-- One parsed atom as consumed by the graph constructor
(`paragraph["atoms"]` entries).  Offsets are optional to model
`atom.get("start_offset", -1)`. -/
structure GAtom where
  text : String
  start_offset : Option Int
  end_offset : Option Int
deriving Repr, DecidableEq

/-- One parsed paragraph (`{"id": ..., "atoms": [...]}`). -/
structure GPara where
  id : Nat
  atoms : List GAtom
deriving Repr, DecidableEq

/-- One parsed subsection. -/
structure GSub where
  id : Nat
  title : String
  paragraphs : List GPara
deriving Repr, DecidableEq

/-- One parsed chapter (the list form of `self.chapters`). -/
structure GChapter where
  title : Option String
  paragraphs : List GPara
  subsections : List GSub
deriving Repr, DecidableEq

/-- An `{"id": ..., "text": ...}` context entry handed to the classifier. -/
structure IdText where
  id : String
  text : String
deriving Repr, DecidableEq

/-- A validated classifier response as returned by
`LLMClient.process_atom`: a classification and a relationships array
(the `Error` fallback is one such value). -/
structure LLMResponse where
  classification : String
  relationships : List Relationship
deriving Repr, DecidableEq

/-- The atom id `chap{C}_par{P}_atom{N}` (construct_graph.py line 115). -/
def chapterAtomId (chapterIdx paraId atomIdx : Nat) : String :=
  "chap" ++ toString chapterIdx ++ "_par" ++ toString paraId ++ "_atom" ++ toString (atomIdx + 1)

/-- The atom id `chap{C}_sec{S}_par{P}_atom{N}` (construct_graph.py line 153). -/
def subsectionAtomId (chapterIdx secId paraId atomIdx : Nat) : String :=
  "chap" ++ toString chapterIdx ++ "_sec" ++ toString secId ++ "_par" ++ toString paraId
    ++ "_atom" ++ toString (atomIdx + 1)

/-- Process the atoms of one paragraph in reading order
(construct_graph.py lines 112–144), given the id-builder for this level,
the atoms of the previous paragraph as context, and the LLM. -/
def processParagraph (llm : IdText → List IdText → LLMResponse)
    (mkId : Nat → Nat → String) (chapterTitle : String) (sectionId : Option Nat)
    (prevParagraphAtoms : List IdText) (para : GPara) : List Component :=
  (List.range para.atoms.length).filterMap (fun atomIdx =>
    match para.atoms[atomIdx]? with
    | none => none
    | some atom =>
      let atomId := mkId para.id atomIdx
      let target : IdText := { id := atomId, text := atom.text }
      let context := prevParagraphAtoms ++
        ((List.range atomIdx).filterMap (fun idx =>
          (para.atoms[idx]?).map (fun a => ({ id := mkId para.id idx, text := a.text } : IdText))))
      let response := llm target context
      some { id := atomId, chapter_title := chapterTitle, section_id := sectionId,
             paragraph_id := para.id, text := atom.text,
             start_offset := atom.start_offset.getD (-1),
             end_offset := atom.end_offset.getD (-1),
             classification := response.classification,
             relationships := response.relationships })

/-- The `prev_paragraph_atoms` context computed after a paragraph
(construct_graph.py lines 141–144). -/
def paragraphContext (mkId : Nat → Nat → String) (para : GPara) : List IdText :=
  (List.range para.atoms.length).filterMap (fun idx =>
    (para.atoms[idx]?).map (fun a => ({ id := mkId para.id idx, text := a.text } : IdText)))

/-- Sequential processing of a paragraph list, threading the
previous-paragraph context. -/
def processParagraphs (llm : IdText → List IdText → LLMResponse)
    (mkId : Nat → Nat → String) (chapterTitle : String) (sectionId : Option Nat) :
    List IdText → List GPara → List Component
  | _, [] => []
  | prev, p :: rest =>
    processParagraph llm mkId chapterTitle sectionId prev p ++
      processParagraphs llm mkId chapterTitle sectionId (paragraphContext mkId p) rest

/-- Atom count of one chapter, skipping `Notes` subsections
(`_count_atoms_in_chapter`, construct_graph.py lines 56–71). -/
def countAtomsInChapter (ch : GChapter) : Nat :=
  (ch.paragraphs.map (fun p => p.atoms.length)).sum +
    ((ch.subsections.filter (fun s => !(s.title == "Notes"))).map
      (fun s => (s.paragraphs.map (fun p => p.atoms.length)).sum)).sum

/-- `GraphConstructor._process_chapter` (construct_graph.py lines
87–197): chapter-level paragraphs sequentially, then each non-Notes
subsection; empty chapters return no components. -/
def processChapter (llm : IdText → List IdText → LLMResponse)
    (chapterIdx : Nat) (chapterTitle : String) (ch : GChapter) : List Component :=
  if countAtomsInChapter ch == 0 then []
  else
    processParagraphs llm (chapterAtomId chapterIdx) chapterTitle none [] ch.paragraphs ++
      ((ch.subsections.filter (fun s => !(s.title == "Notes"))).flatMap (fun s =>
        processParagraphs llm (subsectionAtomId chapterIdx s.id) chapterTitle (some s.id)
          [] s.paragraphs))

/-- `GraphConstructor.build_graph` (construct_graph.py lines 199–277)
for the list form of `chapters`.  Note line 273 binds the pruned graph
to `filtered_graph` but line 277 returns `raw_graph`. -/
def build_graph (documentTitle : String) (chapters : List GChapter)
    (llm : IdText → List IdText → LLMResponse)
    (validClasses : List String) (rules : List (String × Rule)) : Graph :=
  let totalAtoms := (chapters.map countAtomsInChapter).sum
  if totalAtoms == 0 then
    { document_title := documentTitle, components := [] }
  else
    let annotatedComponents :=
      (List.range chapters.length).flatMap (fun idx =>
        match chapters[idx]? with
        | none => []
        | some ch =>
          processChapter llm idx (ch.title.getD ("Chapter " ++ toString (idx + 1))) ch)
    let rawGraph : Graph := { document_title := documentTitle, components := annotatedComponents }
    let filteredGraph := prune_by_ontology validClasses rules rawGraph
    let _ := filteredGraph
    rawGraph

/-! ## Token-bucket rate limiter (`src/llm/llm_client.py` lines 9–38)

Python floats are modelled as exact rationals; the monotonic clock is
modelled by the list of values `time.monotonic()` returns at the
successive loop iterations of one `consume` call. -/

/-- The limiter state guarded by the lock: refill rate, burst capacity,
current token count, and the time of the last refill. -/
structure TokenBucket where
  rate : ℚ
  capacity : ℚ
  tokens : ℚ
  lastRefill : ℚ
deriving Repr, DecidableEq

/-- `TokenBucketRateLimiter.__init__`: a full bucket. -/
def TokenBucket.init (rate capacity : ℚ) (now : ℚ) : TokenBucket :=
  { rate := rate, capacity := capacity, tokens := capacity, lastRefill := now }

/-- One refill step (llm_client.py lines 24–28):
`tokens = min(capacity, tokens + elapsed * rate)`. -/
def TokenBucket.refill (b : TokenBucket) (now : ℚ) : TokenBucket :=
  { b with tokens := min b.capacity (b.tokens + (now - b.lastRefill) * b.rate),
           lastRefill := now }

/-- `TokenBucketRateLimiter.consume` (llm_client.py lines 21–38): loop
over clock readings; after refilling, either take one token and return,
or sleep and retry.  `none` means the supplied clock readings ran out
before a token was available. -/
def TokenBucket.consume (b : TokenBucket) : List ℚ → Option TokenBucket
  | [] => none
  | now :: rest =>
    let r := b.refill now
    if 1 ≤ r.tokens then some { r with tokens := r.tokens - 1 }
    else r.consume rest

/-! ## Chapter post-filter (`Parser.find_chapters`, parse.py lines 344–419)

The filter re-parses each candidate's title with
`re.search(r'Chapter (\d+)', title)`, tracks the maximal chapter number
seen so far, and merges regressing or duplicate chapters into the
previous retained chapter by extending its `end_offset`. -/

/-- A chapter candidate as assembled by the main-pattern loop
(parse.py lines 345–371). -/
structure RawChapter where
  title : String
  start_offset : Nat
  end_offset : Nat
  header_end_offset : Nat
deriving Repr, DecidableEq

/-- `int()` of a nonempty digit string. -/
def digitsToNat (ds : Str) : Nat :=
  ds.foldl (fun n c => n * 10 + (c.toNat - 48)) 0

/-- Does `s` begin with `Chapter ` followed by at least one digit?  If
so, return the number denoted by the maximal digit run. -/
def chapterNumHere (s : Str) : Option Nat :=
  if ("Chapter ".data).isPrefixOf s then
    let ds := (s.drop 8).takeWhile isDigitChar
    if ds.isEmpty then none else some (digitsToNat ds)
  else none

/-- `re.search(r'Chapter (\d+)', title)` followed by `int(group(1))`:
the number at the first position where the pattern matches. -/
def searchChapterNum : Str → Option Nat
  | [] => none
  | c :: cs =>
    match chapterNumHere (c :: cs) with
    | some n => some n
    | none => searchChapterNum cs

/-- The scan state of the post-filter: retained chapters in reverse
order, the `seen_chapter_numbers` set, and `max_chapter_number`. -/
structure ChapterScanState where
  accRev : List RawChapter
  seen : List (Nat × String)
  maxNum : Nat
deriving Repr, DecidableEq

/-- One iteration of the post-filter loop (parse.py lines 380–416). -/
def chapterScanStep (st : ChapterScanState) (ch : RawChapter) : ChapterScanState :=
  match searchChapterNum ch.title.data with
  | some n =>
    if n < st.maxNum then
      match st.accRev with
      | [] => st
      | prev :: accTail =>
        { st with accRev := { prev with end_offset := ch.end_offset } :: accTail }
    else if st.seen.contains (n, ch.title) then
      match st.accRev with
      | [] => st
      | prev :: accTail =>
        { st with accRev := { prev with end_offset := ch.end_offset } :: accTail }
    else
      { accRev := ch :: st.accRev, seen := (n, ch.title) :: st.seen,
        maxNum := max st.maxNum n }
  | none => { st with accRev := ch :: st.accRev }

/-- The post-filter loop over a chapter list. -/
def chapterScan (cs : List RawChapter) (st : ChapterScanState) : ChapterScanState :=
  cs.foldl chapterScanStep st

/-- The chapter post-filter of `find_chapters` (parse.py lines 376–419):
the retained chapter list. -/
def find_chapters_filter (cs : List RawChapter) : List RawChapter :=
  (chapterScan cs { accRev := [], seen := [], maxNum := 0 }).accRev.reverse

/-! ## End-section discovery (`Parser.find_end_sections`, parse.py lines 488–610)

`finditerMain` implements `re.finditer` for the numbered-heading pattern
`^\s*#+\s*(?:\d+|[IVXLC]+)\s*$` with `re.MULTILINE | re.IGNORECASE`,
including the greedy trailing `\s*$` (the match extends to the last
newline of the trailing whitespace run, or to the end of the text).
The `end_pattern` match list is a parameter of the embedding; titles are
recomputed from the text slice exactly as
`match.group(0).strip().lstrip('#').strip()` does. -/

/-- `[IVXLC]` under `re.IGNORECASE`. -/
def isRomanChar (c : Char) : Bool :=
  c == 'I' || c == 'V' || c == 'X' || c == 'L' || c == 'C' ||
  c == 'i' || c == 'v' || c == 'x' || c == 'l' || c == 'c'

/-- Greedy `\s*$` (multiline): the largest number of whitespace
characters that can be consumed from `rest` so that the position reached
is the end of the text or sits just before a `'\n'`.  `none` when no
such position exists (the pattern fails). -/
def trailingWsEnd (rest : Str) : Option Nat :=
  let wsRun := rest.takeWhile isPyWs
  if (rest.drop wsRun.length).isEmpty then some wsRun.length
  else
    match wsRun.reverse.findIdx? (· == '\n') with
    | some ridx => some (wsRun.length - 1 - ridx)
    | none => none

/-- Try to match `\s*#+\s*(?:\d+|[IVXLC]+)\s*$` at the start of `cs`
(the `^` anchor is checked by the caller).  Returns the number of
characters consumed.  The digit alternative is tried first; if the
number run is followed by no valid `\s*$` position, no backtracking can
succeed, matching Python's behavior. -/
def matchMainAt (cs : Str) : Option Nat :=
  let w1 := cs.takeWhile isPyWs
  let r1 := cs.drop w1.length
  match r1.head? with
  | some '#' =>
    let hs := r1.takeWhile (· == '#')
    let r2 := r1.drop hs.length
    let w2 := r2.takeWhile isPyWs
    let r3 := r2.drop w2.length
    let ds := r3.takeWhile isDigitChar
    if !ds.isEmpty then
      (trailingWsEnd (r3.drop ds.length)).map
        (fun k => w1.length + hs.length + w2.length + ds.length + k)
    else
      let rs := r3.takeWhile isRomanChar
      if !rs.isEmpty then
        (trailingWsEnd (r3.drop rs.length)).map
          (fun k => w1.length + hs.length + w2.length + rs.length + k)
      else none
  | _ => none

/-- A regex match span (`match.start()`, `match.end()`). -/
structure MatchSpan where
  mstart : Nat
  mend : Nat
deriving Repr, DecidableEq

/-- The scanning loop of `re.finditer` for the numbered-heading pattern:
try each position in order, only at line starts (`^` under MULTILINE),
and continue after the end of each match.  `fuel` dominates the number
of remaining positions. -/
def finditerMainGo : Nat → Str → Nat → Bool → List MatchSpan
  | 0, _, _, _ => []
  | _ + 1, [], _, _ => []
  | fuel + 1, c :: rest, pos, anchor =>
    if anchor then
      match matchMainAt (c :: rest) with
      | some k =>
        ⟨pos, pos + k⟩ ::
          finditerMainGo fuel ((c :: rest).drop k) (pos + k)
            (((c :: rest).take k).getLast? == some '\n')
      | none => finditerMainGo fuel rest (pos + 1) (c == '\n')
    else finditerMainGo fuel rest (pos + 1) (c == '\n')

/-- `re.finditer(main_content_pattern, text)` (parse.py lines 504–509). -/
def finditerMain (text : Str) : List MatchSpan :=
  finditerMainGo (text.length + 1) text 0 true

/-- The scanning loop with its canonical fuel `length + 1`; every
`finditerMainGo` call with enough fuel equals it
(`finditerRun_eq`). -/
def finditerRun (cs : Str) (pos : Nat) (a : Bool) : List MatchSpan :=
  finditerMainGo (cs.length + 1) cs pos a

/-- `match.group(0).strip().lstrip('#').strip()` (parse.py line 524). -/
def matchHeadingTitle (text : Str) (m : MatchSpan) : Str :=
  pyStrip ((pyStrip (pySlice text m.mstart m.mend)).dropWhile (· == '#'))

/-- Skip a single newline after a heading (parse.py lines 546–547). -/
def skipOneNl (text : Str) (i : Nat) : Nat :=
  if (text.drop i).head? == some '\n' then i + 1 else i

/-- `min_end_start` and `num_chapters` (parse.py lines 509–517): the end
of the last numbered-heading match and the number of such matches. -/
def minEndStartOf (text : Str) : Nat :=
  match (finditerMain text).getLast? with
  | some l => l.mend
  | none => 0

/-- The number of numbered-heading matches in `text`. -/
def numChaptersOf (text : Str) : Nat :=
  (finditerMain text).length

/-- The four document-level checks for a `Notes` heading
(parse.py lines 526–569).  `position_ratio <= 0.15` on floats is
modelled by the exact comparison `100 * (len - start) ≤ 15 * len`;
`has_subsequent_chapters` re-runs the numbered-heading scan on
`text[m.start():]` exactly as `findall` does. -/
def notesDocLevelOk (text : Str) (endMatches : List MatchSpan) (m : MatchSpan) : Bool :=
  let inLast15 := 100 * (text.length - m.mstart) ≤ 15 * text.length
  let comesAfterChapters := 3 ≤ numChaptersOf text
  let hasSubsequentChapters := !(finditerMain (text.drop m.mstart)).isEmpty
  let contentStart := skipOneNl text m.mend
  let nextSectionStart :=
    ((endMatches.find? (fun fm => m.mstart < fm.mstart)).map (·.mstart)).getD text.length
  let contentLength := (pyStrip (pySlice text contentStart nextSectionStart)).length
  (inLast15 && comesAfterChapters && !hasSubsequentChapters && 1000 < contentLength : Bool)

/-- `valid_end_matches` (parse.py lines 521–575): matches after the last
numbered heading; `Notes` headings additionally need the four
document-level checks. -/
def validEndMatches (text : Str) (endMatches : List MatchSpan) : List MatchSpan :=
  endMatches.filter (fun m =>
    if minEndStartOf text ≤ m.mstart then
      if lowerStr (matchHeadingTitle text m) == "notes".data then
        notesDocLevelOk text endMatches m
      else true
    else false)

/-- One discovered end section (parse.py lines 600–606). -/
structure EndSection where
  title : Str
  start_offset : Nat
  content_start : Nat
  end_offset : Nat
  text : Str
deriving Repr, DecidableEq

/-- The section-building loop of `find_end_sections`
(parse.py lines 584–606). -/
def buildEndSections (text : Str) : List MatchSpan → List EndSection
  | [] => []
  | m :: rest =>
    let contentStart := skipOneNl text m.mend
    let endOff := match rest.head? with
      | some n => n.mstart
      | none => text.length
    { title := matchHeadingTitle text m, start_offset := m.mstart,
      content_start := contentStart, end_offset := endOff,
      text := pyStrip (pySlice text contentStart endOff) } :: buildEndSections text rest

/-- `Parser.find_end_sections` (parse.py lines 488–610), with the
`end_pattern` match list supplied as a parameter. -/
def find_end_sections (text : Str) (endMatches : List MatchSpan) : List EndSection :=
  buildEndSections text (validEndMatches text endMatches)

/-! ## Note-marker isolation (`Parser._preprocess_note_references`, parse.py lines 16–54) -/

/-- The left brace character, written via its code point. -/
def lbrace : Char := Char.ofNat 123

/-- The right brace character, written via its code point. -/
def rbrace : Char := Char.ofNat 125

/-- Consumed length of `\d+(?:,\d+)*` at the start of `cs`, if a first
digit run exists.  The comma loop is deterministic: a comma is consumed
only when digits follow. -/
def digitsCommasGo : Nat → Str → Nat → Nat
  | 0, _, acc => acc
  | fuel + 1, rest, acc =>
    match rest with
    | ',' :: r2 =>
      let ds := r2.takeWhile isDigitChar
      if ds.isEmpty then acc
      else digitsCommasGo fuel (r2.drop ds.length) (acc + 1 + ds.length)
    | _ => acc

/-- Consumed length of `\d+(?:,\d+)*`, or `none`. -/
def digitsCommas (cs : Str) : Option Nat :=
  let ds := cs.takeWhile isDigitChar
  if ds.isEmpty then none
  else some (digitsCommasGo cs.length (cs.drop ds.length) ds.length)

/-- Try the note-marker pattern `\$\{\s*\}\^\{\d+(?:,\d+)*\}\$` at the
start of `cs`; return (consumed length, the ids text of group 1). -/
def matchNoteAt (cs : Str) : Option (Nat × Str) :=
  match cs with
  | '$' :: c1 :: r =>
    if c1 == lbrace then
      let w := r.takeWhile isPyWs
      let r2 := r.drop w.length
      match r2 with
      | c2 :: '^' :: c3 :: r3 =>
        if c2 == rbrace && c3 == lbrace then
          match digitsCommas r3 with
          | some k =>
            match r3.drop k with
            | c4 :: '$' :: _ =>
              if c4 == rbrace then some (2 + w.length + 3 + k + 2, r3.take k) else none
            | _ => none
          | none => none
        else none
      | _ => none
    else none
  | _ => none

/-- The scanning loop of `re.finditer` for the note-marker pattern. -/
def finditerNoteGo : Nat → Str → Nat → List MatchSpan
  | 0, _, _ => []
  | _ + 1, [], _ => []
  | fuel + 1, c :: rest, pos =>
    match matchNoteAt (c :: rest) with
    | some (k, _) => ⟨pos, pos + k⟩ :: finditerNoteGo fuel ((c :: rest).drop k) (pos + k)
    | none => finditerNoteGo fuel rest (pos + 1)

/-- `re.finditer(reference_pattern, text)` for note markers. -/
def finditerNote (text : Str) : List MatchSpan :=
  finditerNoteGo (text.length + 1) text 0

/-- `text.rfind('\n', 0, i) + 1`: the start of the line containing
position `i` (parse.py line 32). -/
def lineStartBefore (t : Str) (i : Nat) : Nat :=
  match ((t.take i).reverse.findIdx? (· == '\n')) with
  | some ridx => i - ridx
  | none => 0

/-- `text.find('\n', i)`, with `-1` replaced by the text length
(parse.py lines 33–35). -/
def lineEndAfter (t : Str) (i : Nat) : Nat :=
  match ((t.drop i).findIdx? (· == '\n')) with
  | some idx => i + idx
  | none => t.length

/-- One iteration of the reversed-match loop of
`_preprocess_note_references` (parse.py lines 26–52), operating on the
current text with the match span found on the original text.  The
`else` branch performs its two splices sequentially, the second one
reading the already-spliced text at the original `end_pos`, exactly as
the source does. -/
def preprocessNoteStep (t : Str) (m : MatchSpan) : Str :=
  let startPos := m.mstart
  let endPos := m.mend
  let noteRef := pySlice t startPos endPos
  let lineStart := lineStartBefore t startPos
  let lineEnd := lineEndAfter t endPos
  let beforeText := pyStrip (pySlice t lineStart startPos)
  let afterText := pyStrip (pySlice t endPos lineEnd)
  if !beforeText.isEmpty || !afterText.isEmpty then
    t.take startPos ++ ('\n' :: '\n' :: noteRef) ++ ('\n' :: '\n' :: t.drop endPos)
  else
    let t1 :=
      if 0 < startPos && !((t.take startPos).getLast? == some '\n') then
        t.take startPos ++ ('\n' :: noteRef) ++ t.drop endPos
      else t
    if decide (endPos < t1.length) && !(t1[endPos]? == some '\n') then
      t1.take startPos ++ noteRef ++ '\n' :: t1.drop endPos
    else t1

/-- `Parser._preprocess_note_references` (parse.py lines 16–54):
find all note markers, then process them in reverse order. -/
def preprocess_note_references (t : Str) : Str :=
  (finditerNote t).reverse.foldl preprocessNoteStep t

/-! ## Mid-sentence de-wrap (`Parser._remove_extraneous_newlines`, parse.py lines 56–125) -/

/-- The paragraph-break placeholder `<<<PARAGRAPH_BREAK>>>`. -/
def pbPlaceholder : Str := "<<<PARAGRAPH_BREAK>>>".data

/-- Emit a pending newline run: runs of two or more newlines become the
placeholder (`re.sub(r'\n\n+', placeholder, text)`). -/
def emitNlRun (n : Nat) : Str :=
  if n == 0 then [] else if n == 1 then ['\n'] else pbPlaceholder

/-- State machine for `re.sub(r'\n\n+', placeholder, text)`:
`n` counts the pending newline run. -/
def subPBGo : Str → Nat → Str
  | [], n => emitNlRun n
  | c :: cs, n =>
    if c == '\n' then subPBGo cs (n + 1)
    else emitNlRun n ++ c :: subPBGo cs 0

/-- `re.sub(r'\n\n+', placeholder, text)` (parse.py line 66). -/
def subParagraphBreaks (t : Str) : Str := subPBGo t 0

/-- `text.split('\n')`. -/
def splitNl : Str → List Str
  | [] => [[]]
  | c :: cs =>
    if c == '\n' then [] :: splitNl cs
    else
      match splitNl cs with
      | [] => [[c]]
      | l :: ls => (c :: l) :: ls

/-- `'\n'.join(lines)`. -/
def joinNl : List Str → Str
  | [] => []
  | [l] => l
  | l :: ls => l ++ '\n' :: joinNl ls

/-- `s.replace(pat, rep)` for a nonempty `pat`, scanning left to right
without overlap. -/
def replaceAllGo : Nat → Str → Str → Str → Str
  | 0, _, _, s => s
  | fuel + 1, pat, rep, s =>
    match s with
    | [] => []
    | c :: cs =>
      if pat.isPrefixOf (c :: cs) then rep ++ replaceAllGo fuel pat rep ((c :: cs).drop pat.length)
      else c :: replaceAllGo fuel pat rep cs

/-- `result.replace(placeholder, '\n\n')` (parse.py line 123). -/
def restoreParagraphBreaks (s : Str) : Str :=
  replaceAllGo (s.length + 1) pbPlaceholder ['\n', '\n'] s

/-- `re.search(r'[.!?]\s*$', line)` for a line without inner newlines:
the last non-whitespace character is sentence punctuation. -/
def lineEndsSentence (s : Str) : Bool :=
  match (s.reverse.dropWhile isPyWs).head? with
  | some c => c == '.' || c == '!' || c == '?'
  | none => false

/-- `re.match(r'^\s*#+\s', line)`: optional whitespace, at least one
`#`, then one whitespace character. -/
def lineIsHeader (s : Str) : Bool :=
  let r1 := s.dropWhile isPyWs
  let hs := r1.takeWhile (· == '#')
  !hs.isEmpty && (((r1.drop hs.length).head?.map isPyWs).getD false)

/-- `re.match(r'^\s*#+\s*(?:\d+|[IVXLC]+)\s*$', line, re.I)` for a line
without inner newlines. -/
def lineIsNumberedChapter (s : Str) : Bool :=
  let r1 := s.dropWhile isPyWs
  let hs := r1.takeWhile (· == '#')
  if hs.isEmpty then false
  else
    let r2 := r1.drop hs.length
    let r3 := r2.dropWhile isPyWs
    let ds := r3.takeWhile isDigitChar
    if !ds.isEmpty then (r3.drop ds.length).all isPyWs
    else
      let rs := r3.takeWhile isRomanChar
      !rs.isEmpty && (r3.drop rs.length).all isPyWs

/-- `re.match(r'^(?:\[?(\d+|[ivxlc]+)\]?\.?\s+)', line)`: numbered list
item (lowercase roman only, matching the source pattern). -/
def lineIsListItem (s : Str) : Bool :=
  let r1 := if s.head? == some '[' then s.drop 1 else s
  let ds := r1.takeWhile isDigitChar
  let num := if !ds.isEmpty then ds
             else r1.takeWhile (fun c =>
               c == 'i' || c == 'v' || c == 'x' || c == 'l' || c == 'c')
  if num.isEmpty then false
  else
    let r2 := r1.drop num.length
    let r3 := if r2.head? == some ']' then r2.drop 1 else r2
    let r4 := if r3.head? == some '.' then r3.drop 1 else r3
    (r4.head?.map isPyWs).getD false

/-- `re.match(r'^\[\^([^\]]+)\](?!:)', line)`: footnote reference. -/
def lineIsFootnoteRef (s : Str) : Bool :=
  match s with
  | '[' :: '^' :: r =>
    let inner := r.takeWhile (· != ']')
    !inner.isEmpty && (r.drop inner.length).head? == some ']' &&
      !((r.drop (inner.length + 1)).head? == some ':')
  | _ => false

/-- `re.match(r'^\[\^([^\]]+)\]:\s*', line)`: footnote definition. -/
def lineIsFootnoteDef (s : Str) : Bool :=
  match s with
  | '[' :: '^' :: r =>
    let inner := r.takeWhile (· != ']')
    !inner.isEmpty && (r.drop inner.length).head? == some ']' &&
      (r.drop (inner.length + 1)).head? == some ':'
  | _ => false

/-- `re.search(reference_pattern, line)`: the line contains a note
marker somewhere. -/
def containsNoteRef : Str → Bool
  | [] => false
  | c :: cs => (matchNoteAt (c :: cs)).isSome || containsNoteRef cs

/-- Case-insensitive literal prefix: if the lower-casing of `s` starts
with `w` (given lower-case), return the rest of `s`. -/
def ciPrefixDrop (w : Str) (s : Str) : Option Str :=
  if lowerStr (s.take w.length) == w && w.length ≤ s.length then some (s.drop w.length)
  else none

/-- Match `(?:Publisher\'?s?\s*)?Acknowledgements?` case-insensitively
against a prefix of `s` and return the rest; optionals are consumed
greedily, which is deterministic here. -/
def dropAckGroup (s : Str) : Option Str :=
  let ack : Str → Option Str := fun r =>
    match ciPrefixDrop "acknowledgement".data r with
    | none => none
    | some r2 =>
      if (r2.head?.map (fun c => lowerChar c == 's')).getD false then some (r2.drop 1)
      else some r2
  match ciPrefixDrop "publisher".data s with
  | some r1 =>
    let r2 := if r1.head? == some (Char.ofNat 39) then r1.drop 1 else r1
    let r3 := if (r2.head?.map (fun c => lowerChar c == 's')).getD false then r2.drop 1 else r2
    let r4 := r3.dropWhile isPyWs
    match ack r4 with
    | some r5 => some r5
    | none => ack s
  | none => ack s

/-- The simple literal alternatives of the end-section pattern. -/
def endSectionWords : List Str :=
  ["bibliography".data, "index".data, "references".data, "appendix".data,
   "appendices".data, "glossary".data, "endnotes".data, "afterword".data,
   "notes".data]

/-- Match the end-section word alternation against a prefix of `s`;
return the rest on success. -/
def dropEndSectionWord (s : Str) : Option Str :=
  match endSectionWords.filterMap (fun w => ciPrefixDrop w s) with
  | r :: _ => some r
  | [] => dropAckGroup s

/-- `re.match(r'^\s*#*\s*(?:Bibliography|...|Notes)\s*$', line, re.I)`
for a line without inner newlines.  For the end-of-line anchor the
alternation is equivalent to trying every alternative and requiring
only whitespace after it. -/
def lineIsEndSectionHeader (s : Str) : Bool :=
  let r1 := s.dropWhile isPyWs
  let r2 := r1.dropWhile (· == '#')
  let r3 := r2.dropWhile isPyWs
  (endSectionWords.any (fun w =>
    match ciPrefixDrop w r3 with
    | some rest => rest.all isPyWs
    | none => false)) ||
  (match dropAckGroup r3 with
   | some rest => rest.all isPyWs
   | none => false)

/-- The simple literal alternatives of the intro-section pattern. -/
def introSectionWords : List Str :=
  ["contents".data, "introduction".data, "preface".data, "prologue".data]

/-- `re.match(r'^#+\s*(?:Contents|...|Acknowledgements?)\s*$', line, re.I)`
for a line without inner newlines. -/
def lineIsIntroSectionHeader (s : Str) : Bool :=
  let hs := s.takeWhile (· == '#')
  if hs.isEmpty then false
  else
    let r3 := (s.drop hs.length).dropWhile isPyWs
    (introSectionWords.any (fun w =>
      match ciPrefixDrop w r3 with
      | some rest => rest.all isPyWs
      | none => false)) ||
    (match dropAckGroup r3 with
     | some rest => rest.all isPyWs
     | none => false)

/-- `re.match(r'^#{0,4}\s*Notes\s*$', line, re.I)` for a line without
inner newlines. -/
def lineIsNotesHeader (s : Str) : Bool :=
  let hs := s.takeWhile (· == '#')
  if 4 < hs.length then false
  else
    let r3 := (s.drop hs.length).dropWhile isPyWs
    match ciPrefixDrop "notes".data r3 with
    | some rest => rest.all isPyWs
    | none => false

/-- The join condition of `_remove_extraneous_newlines`
(parse.py lines 93–110), on the stripped current and next lines. -/
def shouldJoin (cur next : Str) : Bool :=
  !next.isEmpty &&
  !lineEndsSentence cur &&
  !lineIsHeader cur && !lineIsHeader next &&
  !lineIsNumberedChapter cur && !lineIsNumberedChapter next &&
  !lineIsListItem next &&
  !lineIsFootnoteRef next && !lineIsFootnoteDef next &&
  !containsNoteRef cur && !containsNoteRef next &&
  !lineIsNotesHeader cur && !lineIsNotesHeader next &&
  !lineIsEndSectionHeader cur && !lineIsEndSectionHeader next &&
  !lineIsIntroSectionHeader cur && !lineIsIntroSectionHeader next

/-- The line-joining loop of `_remove_extraneous_newlines`
(parse.py lines 72–119): join a line with its successor when
`shouldJoin` holds, skipping both; preserve lines otherwise. -/
def processLines : List Str → List Str
  | [] => []
  | l :: rest =>
    let cur := pyStrip l
    if cur.isEmpty then l :: processLines rest
    else
      match rest with
      | [] => [l]
      | nl :: rest2 =>
        if shouldJoin cur (pyStrip nl) then
          (pyRStrip l ++ ' ' :: pyLStrip nl) :: processLines rest2
        else l :: processLines (nl :: rest2)

/-- `Parser._remove_extraneous_newlines` (parse.py lines 56–125). -/
def remove_extraneous_newlines (t : Str) : Str :=
  if t.isEmpty then t
  else restoreParagraphBreaks (joinNl (processLines (splitNl (subParagraphBreaks t))))

/-! ## Atom decomposition (`Parser.decompose_paragraph`, parse.py lines 965–1077)

The citation pattern
`(\s*\([^)]+\d{4}[^)]*\)|\s*\[\^?\d+\]|\s*\$\{\s*\}\^\{(\d+(?:,\d+)*)\}\$)`
has two capture groups, so `re.split` emits, for every match, both the
whole match (group 1) and — for the note-marker alternative only — the
inner digit text (group 2); for the other alternatives group 2 is
`None`.  Parts are therefore modelled as `Option Str`.  The sentence
tokenizer `nltk.sent_tokenize` is a parameter `tok`. -/

/-- Four consecutive digits somewhere in `s`. -/
def hasFourDigitWindow : Str → Bool
  | a :: b :: c :: d :: rest =>
    (isDigitChar a && isDigitChar b && isDigitChar c && isDigitChar d) ||
      hasFourDigitWindow (b :: c :: d :: rest)
  | _ => false

/-- `[^)]+\d{4}` inside the non-`)` run: at least one character before
a window of four digits. -/
def parenBodyOk (inner : Str) : Bool :=
  match inner with
  | [] => false
  | _ :: rest => hasFourDigitWindow rest

/-- Try the citation pattern at the start of `cs`.  Returns the
consumed length and the group-2 text (for the note-marker alternative).
Each alternative starts with `\s*` and then a distinct character, so at
most one can apply; within an alternative the match extent is forced
(the closing `)` is the first `)` after the opening one). -/
def matchCitationAt (cs : Str) : Option (Nat × Option Str) :=
  let w := cs.takeWhile isPyWs
  let r := cs.drop w.length
  match r.head? with
  | some '(' =>
    let inner := (r.drop 1).takeWhile (· != ')')
    if (r.drop (1 + inner.length)).head? == some ')' && parenBodyOk inner then
      some (w.length + 1 + inner.length + 1, none)
    else none
  | some '[' =>
    let r1 := r.drop 1
    let r2 := if r1.head? == some '^' then r1.drop 1 else r1
    let caret := r1.length - r2.length
    let ds := r2.takeWhile isDigitChar
    if !ds.isEmpty && (r2.drop ds.length).head? == some ']' then
      some (w.length + 1 + caret + ds.length + 1, none)
    else none
  | some '$' =>
    (matchNoteAt r).map (fun p => (w.length + p.1, some p.2))
  | _ => none

/-- The scanning loop of `re.finditer` for the citation pattern:
spans together with the group-2 text of each match. -/
def finditerCitationGo : Nat → Str → Nat → List (MatchSpan × Option Str)
  | 0, _, _ => []
  | _ + 1, [], _ => []
  | fuel + 1, c :: rest, pos =>
    match matchCitationAt (c :: rest) with
    | some (k, g2) =>
      (⟨pos, pos + k⟩, g2) :: finditerCitationGo fuel ((c :: rest).drop k) (pos + k)
    | none => finditerCitationGo fuel rest (pos + 1)

/-- All citation-pattern matches of `text`. -/
def finditerCitation (text : Str) : List (MatchSpan × Option Str) :=
  finditerCitationGo (text.length + 1) text 0

/-- Assemble the `re.split` result from the match list: the text before
each match, then group 1 (the whole match), then group 2 (`none` when
the group did not participate), and finally the text after the last
match. -/
def splitFromMatches (text : Str) : List (MatchSpan × Option Str) → Nat → List (Option Str)
  | [], last => [some (text.drop last)]
  | (m, g2) :: rest, last =>
    some (pySlice text last m.mstart) :: some (pySlice text m.mstart m.mend) :: g2 ::
      splitFromMatches text rest m.mend

/-- `re.split(citation_pattern, paragraph_text)` (parse.py line 972). -/
def citationSplit (text : Str) : List (Option Str) :=
  splitFromMatches text (finditerCitation text) 0

/-- `re.fullmatch(citation_pattern, part)`: the unique possible match at
position 0 spans the whole string. -/
def isCitationFullmatch (part : Str) : Bool :=
  match matchCitationAt part with
  | some (k, _) => k == part.length
  | none => false

/-- `str.find(needle, start)` for a nonempty needle, as an option. -/
def strFindGo : Str → Str → Nat → Option Nat
  | [], _, _ => none
  | c :: cs, needle, pos =>
    if needle.isPrefixOf (c :: cs) then some pos
    else strFindGo cs needle (pos + 1)

/-- `hay.find(needle, start)`, `none` for `-1`. -/
def strFind (hay needle : Str) (start : Nat) : Option Nat :=
  strFindGo (hay.drop start) needle start

/-- An atom before id assignment: text, absolute offsets, kind. -/
structure AtomCore where
  text : Str
  start_offset : Nat
  end_offset : Nat
  type : String
deriving Repr, DecidableEq

/-- A decomposed atom (parse.py lines 994–1000 etc.). -/
structure PAtom where
  id : Nat
  text : Str
  start_offset : Nat
  end_offset : Nat
  type : String
deriving Repr, DecidableEq

/-- The first colon at parenthesis depth zero (parse.py lines
1033–1043); the depth is clamped at zero exactly as
`max(0, paren_level - 1)` does (`Nat` subtraction). -/
def colonScan : Str → Nat → Nat → Option Nat
  | [], _, _ => none
  | c :: cs, i, depth =>
    if c == '(' then colonScan cs (i + 1) (depth + 1)
    else if c == ')' then colonScan cs (i + 1) (depth - 1)
    else if c == ':' && depth == 0 then some i
    else colonScan cs (i + 1) depth

/-- The colon-split emission loop (parse.py lines 1048–1063):
`sub_offset` tracking over the two stripped halves. -/
def subPartsAtoms (base : Nat) (sentence : Str) : List Str → Nat → List AtomCore
  | [], _ => []
  | sp :: rest, subOffset =>
    if sp.isEmpty then subPartsAtoms base sentence rest subOffset
    else
      let subStart := (strFind sentence sp subOffset).getD subOffset
      { text := sp, start_offset := base + subStart,
        end_offset := base + subStart + sp.length, type := "sentence" } ::
        subPartsAtoms base sentence rest (subStart + sp.length)

/-- The per-sentence emission loop (parse.py lines 1007–1073):
locate each stripped sentence in the part, then emit it whole, or split
it at the first depth-zero colon. -/
def sentenceAtoms (paragraphStartOffset partStart : Nat) (part : Str) :
    List Str → Nat → List AtomCore
  | [], _ => []
  | raw :: rest, sentenceOffset =>
    let sentence := pyStrip raw
    if sentence.isEmpty then sentenceAtoms paragraphStartOffset partStart part rest sentenceOffset
    else
      let sentenceStart := (strFind part sentence sentenceOffset).getD sentenceOffset
      let newOffset := sentenceStart + sentence.length
      let base := paragraphStartOffset + partStart + sentenceStart
      let atoms :=
        if !(sentence.contains ':') then
          [{ text := sentence, start_offset := base,
             end_offset := base + sentence.length, type := "sentence" }]
        else
          match colonScan sentence 0 0 with
          | some colonIndex =>
            subPartsAtoms base sentence
              [pyStrip (sentence.take colonIndex), pyStrip (sentence.drop (colonIndex + 1))] 0
          | none =>
            [{ text := sentence, start_offset := base,
               end_offset := base + sentence.length, type := "sentence" }]
      atoms ++ sentenceAtoms paragraphStartOffset partStart part rest newOffset

/-- The main part loop of `decompose_paragraph` (parse.py lines
975–1075), over the `re.split` parts (`none` models a `None` group). -/
def decomposeParts (tok : Str → List Str) (paragraphStartOffset : Nat)
    (paragraphText : Str) : List (Option Str) → Nat → List AtomCore
  | [], _ => []
  | none :: rest, currentOffset => decomposeParts tok paragraphStartOffset paragraphText rest currentOffset
  | some part :: rest, currentOffset =>
    if part.isEmpty || pyIsSpace part then
      decomposeParts tok paragraphStartOffset paragraphText rest (currentOffset + part.length)
    else
      let partStart := (strFind paragraphText part currentOffset).getD currentOffset
      let atoms :=
        if isCitationFullmatch part then
          let cleanPart := pyStrip part
          if cleanPart.isEmpty then []
          else
            let cleanStart := (strFind part cleanPart 0).getD 0
            let atomStart := partStart + cleanStart
            [{ text := cleanPart, start_offset := paragraphStartOffset + atomStart,
               end_offset := paragraphStartOffset + atomStart + cleanPart.length,
               type := "citation" }]
        else
          sentenceAtoms paragraphStartOffset partStart part (tok part) 0
      atoms ++ decomposeParts tok paragraphStartOffset paragraphText rest (partStart + part.length)

/-- `Parser.decompose_paragraph` (parse.py lines 965–1077); ids are
1-based in emission order. -/
def decompose_paragraph (tok : Str → List Str) (paragraphText : Str)
    (paragraphStartOffset : Nat) : List PAtom :=
  ((decomposeParts tok paragraphStartOffset paragraphText (citationSplit paragraphText) 0).enum.map
    (fun p => { id := p.1 + 1, text := p.2.text, start_offset := p.2.start_offset,
                end_offset := p.2.end_offset, type := p.2.type }))

/-! ## Paragraph segmentation (`Parser.find_paragraphs_in_block`, parse.py lines 657–717) -/

/-- The spans of `re.finditer(r'\n\n+', content_text)`: maximal newline
runs of length at least two. -/
def findBreaksGo : Str → Nat → Nat → List MatchSpan
  | [], pos, n => if 2 ≤ n then [⟨pos - n, pos⟩] else []
  | c :: cs, pos, n =>
    if c == '\n' then findBreaksGo cs (pos + 1) (n + 1)
    else (if 2 ≤ n then [⟨pos - n, pos⟩] else []) ++ findBreaksGo cs (pos + 1) 0

/-- All paragraph-break spans of `t`. -/
def findBreaks (t : Str) : List MatchSpan := findBreaksGo t 0 0

/-- A segmented paragraph (parse.py lines 678–692). -/
structure Paragraph where
  id : Nat
  text : Str
  start_offset : Nat
  end_offset : Nat
  atoms : List PAtom
deriving Repr, DecidableEq

/-- The paragraph loop of `find_paragraphs_in_block` (parse.py lines
672–715) over the break spans, then the final paragraph. -/
def paragraphsGo (tok : Str → List Str) (ct : Str) (cso : Nat) (decomposeAtoms : Bool) :
    List MatchSpan → Nat → Nat → List Paragraph
  | [], currentPos, paraId =>
    let stripped := pyStrip (ct.drop currentPos)
    if stripped.isEmpty then []
    else
      [{ id := paraId, text := stripped, start_offset := cso + currentPos,
         end_offset := cso + ct.length,
         atoms := if decomposeAtoms then decompose_paragraph tok stripped (cso + currentPos) else [] }]
  | b :: rest, currentPos, paraId =>
    let stripped := pyStrip (pySlice ct currentPos b.mstart)
    if stripped.isEmpty then paragraphsGo tok ct cso decomposeAtoms rest b.mend paraId
    else
      { id := paraId, text := stripped, start_offset := cso + currentPos,
        end_offset := cso + b.mstart,
        atoms := if decomposeAtoms then decompose_paragraph tok stripped (cso + currentPos) else [] } ::
        paragraphsGo tok ct cso decomposeAtoms rest b.mend (paraId + 1)

/-- `Parser.find_paragraphs_in_block` (parse.py lines 657–717): de-wrap
the block, split on paragraph breaks, strip, and decompose. -/
def find_paragraphs_in_block (tok : Str → List Str) (contentText : Str)
    (contentStartOffset : Nat) (decomposeAtoms : Bool) : List Paragraph :=
  if contentText.isEmpty then []
  else
    let ct := remove_extraneous_newlines contentText
    paragraphsGo tok ct contentStartOffset decomposeAtoms (findBreaks ct) 0 1

/-! ## Concrete instances used by the claim checks

Braces inside marker strings are built from character codes. -/

/-- A sentence tokenizer standing in for `nltk.sent_tokenize` on
single-sentence inputs: the whole text as one sentence (empty input
gives no sentences), which is `sent_tokenize`'s behavior on the short
texts used in the concrete checks below. -/
def tok0 (s : Str) : List Str := if s.isEmpty then [] else [s]

/-- The note marker `${ }^{1}$` as a character list. -/
def noteMarker1 : Str :=
  ['$', lbrace, ' ', rbrace, '^', lbrace, '1', rbrace, '$']

/-- The note-transform input: the marker alone on its line surrounded
by single spaces. -/
def noteIsolationInput : Str := ' ' :: noteMarker1 ++ [' ']

/-- Three unwrapped lines for the de-wrap transform. -/
def dewrapInput : Str := "a\nb\nc".data

/-- A one-atom document whose classifier always fails: the atom is
emitted with classification `Error`. -/
def errChapters : List GChapter :=
  [{ title := some "Ch", paragraphs := [{ id := 1, atoms := [{ text := "Hello.", start_offset := some 0, end_offset := some 6 }] }], subsections := [] }]

/-- A classifier stub that always returns the `Error` fallback. -/
def errLLM : IdText → List IdText → LLMResponse := fun _ _ => ⟨"Error", []⟩

/-- A small taxonomy. -/
def smallClasses : List String := ["Claim", "Evidence"]

/-- A small ontology with one rule. -/
def smallRules : List (String × Rule) :=
  [("supports", { valid_sources := ["Claim"], valid_targets := ["Evidence"] })]

/-- A two-component graph exercising pruning and materialization:
`a` supports `b` outgoing, and `b` reports the same edge incoming. -/
def twoCompGraph : Graph :=
  { document_title := "Doc",
    components :=
      [{ id := "a", chapter_title := "Ch", section_id := none, paragraph_id := 1,
         text := "A", start_offset := 0, end_offset := 1, classification := "Claim",
         relationships := [{ target_id := "b", type := "supports", direction := "outgoing", justification := "j1" }] },
       { id := "b", chapter_title := "Ch", section_id := none, paragraph_id := 1,
         text := "B", start_offset := 2, end_offset := 3, classification := "Evidence",
         relationships := [{ target_id := "a", type := "supports", direction := "incoming", justification := "j2" }] }] }

/-- An atom id map covering `twoCompGraph`. -/
def twoCompMap : List (String × Nat) := [("a", 10), ("b", 11)]

/-- Chapter candidates with a regressing number: chapter 2 appears
after chapter 3. -/
def regressChapters : List RawChapter :=
  [{ title := "Chapter 1: A", start_offset := 0, end_offset := 100, header_end_offset := 10 },
   { title := "Chapter 3: B", start_offset := 100, end_offset := 200, header_end_offset := 110 },
   { title := "Chapter 2: C", start_offset := 200, end_offset := 300, header_end_offset := 210 }]

/-- The segments of the end-section counterexample document. -/
def c9seg1 : Str := "# 1\n".data

/-- First filler block. -/
def c9fill1 : Str := List.replicate 4000 'x'

/-- Second chapter heading segment. -/
def c9seg2 : Str := "\n\n# 2\n".data

/-- Second filler block. -/
def c9fill2 : Str := List.replicate 3000 'x'

/-- Third chapter heading immediately followed by a blank line and the
`Notes` heading. -/
def c9seg3 : Str := "\n\n# 3\n\n\nNotes\n".data

/-- The notes body. -/
def c9body : Str := List.replicate 1200 'y'

/-- The document: three numbered chapters, the third one empty, with a
document-final `Notes` section of 1200 characters in the last 15% of
the text. -/
def c9Text : Str :=
  c9seg1 ++ c9fill1 ++ c9seg2 ++ c9fill2 ++ c9seg3 ++ c9body ++ ['\n']

/-- The single `end_pattern` match of `c9Text`: the `Notes` heading
match `\n\nNotes` spanning positions 7016–7023 (its `\s*` consumes the
blank line before the heading, so it begins one character before the
end of the `# 3` chapter-heading match). -/
def c9EndMatches : List MatchSpan := [⟨7016, 7023⟩]

/-- The `Notes` match of the counterexample. -/
def c9m : MatchSpan := ⟨7016, 7023⟩

/-- A small document for the end-section witness: a lone `Notes`
heading at the top of the text. -/
def c9SmallText : Str := "Notes\nhi".data

/-- Its `end_pattern` match. -/
def c9SmallEnd : List MatchSpan := [⟨0, 5⟩]

/-- The no-op conditions of one note-marker iteration: the marker is
alone on its line and both splice conditions of the `else` branch of
`_preprocess_note_references` are false. -/
def isolatedNoteOk (t : Str) (m : MatchSpan) : Bool :=
  (pyStrip (pySlice t (lineStartBefore t m.mstart) m.mstart)).isEmpty &&
  (pyStrip (pySlice t m.mend (lineEndAfter t m.mend))).isEmpty &&
  !(0 < m.mstart && !((t.take m.mstart).getLast? == some '\n')) &&
  !(decide (m.mend < t.length) && !(t[m.mend]? == some '\n'))

/-- Does the text contain three consecutive newlines (a paragraph-break
run that `re.sub(r'\n\n+', ...)` would shorten)? -/
def hasTripleNl : Str → Bool
  | a :: b :: c :: rest =>
    (a == '\n' && b == '\n' && c == '\n') || hasTripleNl (b :: c :: rest)
  | _ => false

/-- A note-transform witness text: a marker alone on its line, bounded
by newlines. -/
def noteIsolatedText : Str := 'a' :: '\n' :: noteMarker1 ++ '\n' :: 'b' :: []

/-- A de-wrap witness text: two lines ending in sentence punctuation. -/
def dewrapStableText : Str := "First line.\nSecond.".data

/-! # Theorems -/

/-- Invariant propagation through one `consume` call: positive rate and
capacity and a monotone clock keep `0 ≤ tokens ≤ capacity`, and a
completed call ends with one token taken from a refilled balance of at
least one token. -/
theorem TokenBucket.consume_spec (ts : List ℚ) :
    ∀ b b' : TokenBucket, 0 ≤ b.rate → 0 < b.capacity → 0 ≤ b.tokens →
    List.Chain' (· ≤ ·) (b.lastRefill :: ts) → b.consume ts = some b' →
    b'.rate = b.rate ∧ b'.capacity = b.capacity ∧
      0 ≤ b'.tokens ∧ b'.tokens ≤ b'.capacity ∧
      ∃ (pre : TokenBucket) (now : ℚ), now ∈ ts ∧ pre.capacity = b.capacity ∧
        1 ≤ (pre.refill now).tokens ∧ b'.tokens = (pre.refill now).tokens - 1 := by
  induction ts with
  | nil => intro b b' _ _ _ _ h; simp [TokenBucket.consume] at h
  | cons now rest ih =>
    intro b b' hr hc ht hchain h
    have hle : b.lastRefill ≤ now := (List.chain'_cons.mp hchain).1
    have hchain' : List.Chain' (· ≤ ·) (now :: rest) := (List.chain'_cons.mp hchain).2
    have hrtok : 0 ≤ (b.refill now).tokens := by
      have h1 : 0 ≤ b.tokens + (now - b.lastRefill) * b.rate := by
        have : 0 ≤ (now - b.lastRefill) * b.rate :=
          mul_nonneg (by linarith) hr
        linarith
      simp only [TokenBucket.refill]
      exact le_min (le_of_lt hc) h1
    simp only [TokenBucket.consume] at h
    by_cases h1 : 1 ≤ (b.refill now).tokens
    · rw [if_pos h1] at h
      obtain rfl : { b.refill now with tokens := (b.refill now).tokens - 1 } = b' :=
        Option.some.inj h
      refine ⟨rfl, rfl, by simpa using h1, ?_, b, now, List.mem_cons_self .., rfl, h1, rfl⟩
      have : (b.refill now).tokens ≤ b.capacity := by
        simp only [TokenBucket.refill]; exact min_le_left _ _
      simp only [TokenBucket.refill] at this ⊢
      linarith
    · rw [if_neg h1] at h
      have hch : List.Chain' (· ≤ ·) ((b.refill now).lastRefill :: rest) := by
        simpa [TokenBucket.refill] using hchain'
      obtain ⟨e1, e2, e3, e4, pre, now', hmem, hcap, hone, hval⟩ :=
        ih (b.refill now) b' (by simpa [TokenBucket.refill] using hr)
          (by simpa [TokenBucket.refill] using hc) hrtok hch h
      exact ⟨by simpa [TokenBucket.refill] using e1,
             by simpa [TokenBucket.refill] using e2, e3, e4,
             pre, now', List.mem_cons_of_mem _ hmem,
             by simpa [TokenBucket.refill] using hcap, hone, hval⟩

/-- C10: for a `TokenBucketRateLimiter` constructed with positive rate
and capacity, the token count is `capacity` (hence within
`[0, capacity]`) after construction, and after every completed
`consume` call — under the monotonic clock — the count stays within
`[0, capacity]`, with the call taking exactly one token from the
refilled balance. -/
theorem token_bucket_invariant (r c t₀ : ℚ) (hr : 0 < r) (hc : 0 < c) :
    ((TokenBucket.init r c t₀).tokens = c ∧ 0 ≤ (TokenBucket.init r c t₀).tokens ∧
      (TokenBucket.init r c t₀).tokens ≤ (TokenBucket.init r c t₀).capacity) ∧
    ∀ (b b' : TokenBucket) (ts : List ℚ),
      b.rate = r → b.capacity = c → 0 ≤ b.tokens →
      List.Chain' (· ≤ ·) (b.lastRefill :: ts) → b.consume ts = some b' →
      0 ≤ b'.tokens ∧ b'.tokens ≤ b'.capacity ∧ b'.capacity = c ∧
        ∃ (pre : TokenBucket) (now : ℚ), now ∈ ts ∧ 1 ≤ (pre.refill now).tokens ∧
          b'.tokens = (pre.refill now).tokens - 1 := by
  constructor
  · exact ⟨rfl, by simp [TokenBucket.init]; positivity, by simp [TokenBucket.init]⟩
  · intro b b' ts hbr hbc ht hchain h
    obtain ⟨e1, e2, e3, e4, pre, now, hmem, hcap, hone, hval⟩ :=
      TokenBucket.consume_spec ts b b' (by rw [hbr]; exact le_of_lt hr)
        (by rw [hbc]; exact hc) ht hchain h
    exact ⟨e3, e4, by rw [e2, hbc], pre, now, hmem, hone, hval⟩

/-- Witness for C10 at rate 6, capacity 6: one refill at time 1 keeps
the bucket full, and the completed consume leaves five tokens. -/
theorem token_bucket_invariant_witness :
    ∃ b' : TokenBucket, (TokenBucket.init 6 6 0).consume [1] = some b' ∧
      0 ≤ b'.tokens ∧ b'.tokens ≤ b'.capacity ∧ b'.capacity = 6 := by
  have hc : (TokenBucket.init 6 6 0).consume [1] =
      some { rate := 6, capacity := 6, tokens := 5, lastRefill := 1 } := by
    norm_num [TokenBucket.consume, TokenBucket.refill, TokenBucket.init]
  have h := (token_bucket_invariant 6 6 0 (by norm_num) (by norm_num)).2
    (TokenBucket.init 6 6 0) { rate := 6, capacity := 6, tokens := 5, lastRefill := 1 } [1]
    rfl rfl (by norm_num [TokenBucket.init])
    (by simp [TokenBucket.init, List.chain'_cons]) hc
  exact ⟨_, hc, h.1, h.2.1, h.2.2.1⟩

/-- C1: `build_graph` returns the *raw* graph, not the ontology-pruned
one: on a one-atom document whose classifier exhausts retries (the
`Error` fallback), the returned graph still contains the `Error`
component, although the pruned graph — computed on line 273 and
discarded — is empty. -/
theorem build_graph_returns_unpruned_graph :
    (∃ comp ∈ (build_graph "Doc" errChapters errLLM smallClasses smallRules).components,
        comp.classification = "Error" ∧ comp.classification ∉ smallClasses) ∧
    (prune_by_ontology smallClasses smallRules
        (build_graph "Doc" errChapters errLLM smallClasses smallRules)).components = [] ∧
    build_graph "Doc" errChapters errLLM smallClasses smallRules ≠
      prune_by_ontology smallClasses smallRules
        (build_graph "Doc" errChapters errLLM smallClasses smallRules) := by
  refine ⟨⟨{ id := "chap0_par1_atom1", chapter_title := "Ch", section_id := none,
             paragraph_id := 1, text := "Hello.", start_offset := 0, end_offset := 6,
             classification := "Error", relationships := [] }, ?_, ?_, ?_⟩, ?_, ?_⟩ <;> decide

/-- `filterMap` with a function that is `some x` on every member is the
identity. -/
theorem filterMap_eq_self_of {α : Type} {l : List α} {f : α → Option α}
    (h : ∀ x ∈ l, f x = some x) : l.filterMap f = l := by
  induction l with
  | nil => rfl
  | cons a t ih =>
    rw [List.filterMap_cons, h a (List.mem_cons_self ..)]
    exact congrArg (a :: ·) (ih fun x hx => h x (List.mem_cons_of_mem _ hx))

/-- Membership in pruning pass 1, unfolded. -/
theorem mem_pass1List {vc : List String} {rules : List (String × Rule)}
    {comps : List Component} {c : Component} :
    c ∈ pass1List vc rules comps ↔
      ∃ c₀ ∈ comps, vc.contains c₀.classification = true ∧
        c = { c₀ with relationships :=
                c₀.relationships.filter (pass1RelOk rules (comps.map (·.id))) } := by
  simp only [pass1List, List.mem_filterMap, pass1Component]
  constructor
  · rintro ⟨c₀, hmem, hsome⟩
    by_cases hv : vc.contains c₀.classification
    · rw [if_pos hv] at hsome
      exact ⟨c₀, hmem, hv, (Option.some.inj hsome).symm⟩
    · rw [if_neg hv] at hsome; cases hsome
  · rintro ⟨c₀, hmem, hv, rfl⟩
    exact ⟨c₀, hmem, by rw [if_pos hv]⟩

/-- What a relationship surviving pass 2 satisfies. -/
theorem pass2RelOk_elim {rules : List (String × Rule)} {vids : List String}
    {cmap : List (String × String)} {cls : String} {r : Relationship}
    (h : pass2RelOk rules vids cmap cls r = true) :
    vids.contains r.target_id = true ∧
      ∃ tcls, dictGet cmap r.target_id = some tcls ∧ tcls ≠ "" ∧
        ∃ rule, dictGet rules r.type = some rule ∧
          ((r.direction = "outgoing" ∧ rule.valid_sources.contains cls = true ∧
              rule.valid_targets.contains tcls = true) ∨
           (r.direction = "incoming" ∧ rule.valid_sources.contains tcls = true ∧
              rule.valid_targets.contains cls = true)) := by
  unfold pass2RelOk at h
  split at h
  · cases h
  next hnc =>
  have h1 : vids.contains r.target_id = true := by
    by_contra hx
    simp [Bool.not_eq_true] at hx
    simp [hx] at hnc
  refine ⟨h1, ?_⟩
  split at h
  · cases h
  next tcls hg =>
  split at h
  · cases h
  next he =>
  refine ⟨tcls, hg, by simpa using he, ?_⟩
  split at h
  · cases h
  next rule hrule =>
  refine ⟨rule, hrule, ?_⟩
  split at h
  next hd =>
    rw [Bool.and_eq_true] at h
    exact Or.inl ⟨by simpa using hd, h.1, h.2⟩
  next hd =>
  split at h
  next hd2 =>
    rw [Bool.and_eq_true] at h
    exact Or.inr ⟨by simpa using hd2, h.1, h.2⟩
  next hd2 => cases h

/-- Pass 2 keeps ids. -/
theorem pass2List_map_id (rules : List (String × Rule)) (comps : List Component) :
    (pass2List rules comps).map (·.id) = comps.map (·.id) := by
  simp [pass2List, List.map_map, Function.comp]

/-- Pass 2 keeps classifications. -/
theorem pass2List_map_pair (rules : List (String × Rule)) (comps : List Component) :
    (pass2List rules comps).map (fun d => (d.id, d.classification)) =
      comps.map (fun d => (d.id, d.classification)) := by
  simp [pass2List, List.map_map, Function.comp]

/-- A component surviving pass 1 has a valid classification. -/
theorem mem_pass1List_class {vc : List String} {rules : List (String × Rule)}
    {comps : List Component} {c : Component} (h : c ∈ pass1List vc rules comps) :
    vc.contains c.classification = true := by
  obtain ⟨c₀, _, hv, rfl⟩ := mem_pass1List.mp h
  exact hv

/-- The projections of a pass-2 component: it comes from an input
component with the same fields and twice-filtered relationships. -/
theorem mem_pass2List_props {rules : List (String × Rule)} {comps : List Component}
    {c : Component} (h : c ∈ pass2List rules comps) :
    ∃ d ∈ comps, c.classification = d.classification ∧ c.id = d.id ∧
      c.relationships = d.relationships.filter (pass2RelOk rules (comps.map (·.id)) (comps.map (fun x => (x.id, x.classification))) d.classification) := by
  simp only [pass2List, List.mem_map] at h
  obtain ⟨d, hd, rfl⟩ := h
  exact ⟨d, hd, rfl, rfl, rfl⟩

/-- Every member of a pass-2 output is the filtered form of itself:
pass-2 relationships already satisfy the pass-2 predicate. -/
theorem mem_pass2List_rels {rules : List (String × Rule)} {comps : List Component}
    {c : Component} (h : c ∈ pass2List rules comps) :
    ∀ r ∈ c.relationships,
      pass2RelOk rules (comps.map (·.id)) (comps.map (fun x => (x.id, x.classification))) c.classification r = true := by
  obtain ⟨d, _, hcl, _, hrels⟩ := mem_pass2List_props h
  intro r hr
  rw [hrels] at hr
  rw [hcl]
  exact List.of_mem_filter hr

/-- A relationship surviving pass 2 also satisfies the pass 1 filter
over the surviving id list. -/
theorem pass2RelOk_implies_pass1RelOk {rules : List (String × Rule)} {vids : List String}
    {cmap : List (String × String)} {cls : String} {r : Relationship}
    (h : pass2RelOk rules vids cmap cls r = true) :
    pass1RelOk rules vids r = true := by
  obtain ⟨h1, tcls, _, _, rule, hrule, hcases⟩ := pass2RelOk_elim h
  unfold pass1RelOk
  rw [h1]
  have hdir : (r.direction == "outgoing" || r.direction == "incoming") = true := by
    rcases hcases with ⟨hd, _⟩ | ⟨hd, _⟩ <;> simp [hd]
  rw [hdir]
  simp [dictHas, hrule]

/-- Pass 1 after a full prune keeps every component unchanged. -/
theorem pass1List_after_prune (vc : List String) (rules : List (String × Rule))
    (comps : List Component) :
    pass1List vc rules (pass2List rules (pass1List vc rules comps)) =
      pass2List rules (pass1List vc rules comps) := by
  apply filterMap_eq_self_of
  intro c hc
  obtain ⟨d, hd, hcl, _, hrels⟩ := mem_pass2List_props hc
  have hcls : vc.contains c.classification = true := by
    rw [hcl]; exact mem_pass1List_class hd
  unfold pass1Component
  rw [if_pos hcls]
  have hfix : c.relationships.filter (pass1RelOk rules ((pass2List rules (pass1List vc rules comps)).map (·.id))) = c.relationships := by
    apply List.filter_eq_self.mpr
    intro r hr
    rw [pass2List_map_id]
    exact pass2RelOk_implies_pass1RelOk (mem_pass2List_rels hc r hr)
  rw [hfix]

/-- Pass 2 after a full prune keeps every component unchanged. -/
theorem pass2List_after_prune (vc : List String) (rules : List (String × Rule))
    (comps : List Component) :
    pass2List rules (pass2List rules (pass1List vc rules comps)) =
      pass2List rules (pass1List vc rules comps) := by
  conv_lhs => rw [pass2List]
  rw [pass2List_map_id, pass2List_map_pair]
  have key : ∀ c ∈ pass2List rules (pass1List vc rules comps),
      ({ c with relationships := c.relationships.filter (pass2RelOk rules ((pass1List vc rules comps).map (·.id)) ((pass1List vc rules comps).map (fun x => (x.id, x.classification))) c.classification) } : Component) = c := by
    intro c hc
    have hfix : c.relationships.filter (pass2RelOk rules ((pass1List vc rules comps).map (·.id)) ((pass1List vc rules comps).map (fun x => (x.id, x.classification))) c.classification) = c.relationships := by
      apply List.filter_eq_self.mpr
      intro r hr
      exact mem_pass2List_rels hc r hr
    rw [hfix]
  calc (pass2List rules (pass1List vc rules comps)).map (fun c => { c with relationships := c.relationships.filter (pass2RelOk rules ((pass1List vc rules comps).map (·.id)) ((pass1List vc rules comps).map (fun x => (x.id, x.classification))) c.classification) })
      = (pass2List rules (pass1List vc rules comps)).map id := List.map_congr_left key
    _ = pass2List rules (pass1List vc rules comps) := List.map_id _

/-- C5: ontology pruning is idempotent: pruning a pruned graph returns
the same graph value. -/
theorem prune_by_ontology_idempotent (vc : List String) (rules : List (String × Rule))
    (g : Graph) :
    prune_by_ontology vc rules (prune_by_ontology vc rules g) = prune_by_ontology vc rules g := by
  unfold prune_by_ontology
  rw [pass1List_after_prune, pass2List_after_prune]

/-- Lookup in a modelled dict with nodup keys finds the unique binding. -/
theorem dictGet_eq_of_nodup {α : Type} {l : List (String × α)}
    (hnd : (l.map (·.1)).Nodup) {k : String} {v : α} (h : (k, v) ∈ l) :
    dictGet l k = some v := by
  induction l with
  | nil => cases h
  | cons a t ih =>
    rw [List.map_cons, List.nodup_cons] at hnd
    unfold dictGet
    rw [List.reverse_cons, List.find?_append]
    rcases List.mem_cons.mp h with rfl | hmem
    · have hnone : t.reverse.find? (fun p => p.1 == k) = none := by
        rw [List.find?_eq_none]
        intro x hx
        have : x.1 ∈ t.map (·.1) := List.mem_map_of_mem _ (List.mem_reverse.mp hx)
        simp only [beq_iff_eq]
        intro hxk
        exact hnd.1 (by rw [← hxk]; exact this)
      rw [hnone]
      simp [List.find?]
    · have hsome := ih hnd.2 hmem
      unfold dictGet at hsome
      cases hf : t.reverse.find? (fun p => p.1 == k) with
      | none => rw [hf] at hsome; cases hsome
      | some p => rw [hf] at hsome; exact hsome

/-- A `filterMap` that preserves a projection yields a sublist of the
projected list. -/
theorem filterMap_map_sublist {α β : Type} (l : List α) (f : α → Option α) (g : α → β)
    (h : ∀ a b, f a = some b → g b = g a) : List.Sublist ((l.filterMap f).map g) (l.map g) := by
  induction l with
  | nil => simp
  | cons a t ih =>
    rw [List.filterMap_cons, List.map_cons]
    cases hf : f a with
    | none => exact (ih).cons _
    | some b => rw [List.map_cons, h a b hf]; exact ih.cons₂ _

/-- Pass 1 preserves the id of each kept component, so its id list is a
sublist of the input id list. -/
theorem pass1List_ids_sublist (vc : List String) (rules : List (String × Rule))
    (comps : List Component) :
    List.Sublist ((pass1List vc rules comps).map (·.id)) (comps.map (·.id)) := by
  apply filterMap_map_sublist
  intro a b hf
  unfold pass1Component at hf
  by_cases hv : vc.contains a.classification
  · rw [if_pos hv] at hf
    rw [← Option.some.inj hf]
  · rw [if_neg hv] at hf; cases hf

/-- C2: in the output of `prune_by_ontology` every relationship of a
retained component targets a retained component and satisfies the
ontology rule of its type in the direction recorded on it. -/
theorem prune_by_ontology_relationship_sound (vc : List String)
    (rules : List (String × Rule)) (g : Graph)
    (hnodup : (g.components.map (·.id)).Nodup) :
    ∀ c ∈ (prune_by_ontology vc rules g).components, ∀ r ∈ c.relationships,
      ∃ c' ∈ (prune_by_ontology vc rules g).components, c'.id = r.target_id ∧
        ∃ rule, dictGet rules r.type = some rule ∧
          ((r.direction = "outgoing" ∧ rule.valid_sources.contains c.classification = true ∧
              rule.valid_targets.contains c'.classification = true) ∨
           (r.direction = "incoming" ∧ rule.valid_sources.contains c'.classification = true ∧
              rule.valid_targets.contains c.classification = true)) := by
  intro c hc r hr
  have hpass2 := mem_pass2List_rels hc r hr
  obtain ⟨hcont, tcls, hget, hne, rule, hrule, hcases⟩ := pass2RelOk_elim hpass2
  have hnd1 : ((pass1List vc rules g.components).map (·.id)).Nodup :=
    hnodup.sublist (pass1List_ids_sublist vc rules g.components)
  have htmem : r.target_id ∈ (pass1List vc rules g.components).map (·.id) := by
    simpa using hcont
  obtain ⟨d', hd', hid⟩ := List.mem_map.mp htmem
  have hpair : (d'.id, d'.classification) ∈
      (pass1List vc rules g.components).map (fun x => (x.id, x.classification)) :=
    List.mem_map_of_mem _ hd'
  have hkeys : (((pass1List vc rules g.components).map
      (fun x => (x.id, x.classification))).map (·.1)).Nodup := by
    rw [List.map_map]
    exact hnd1
  have hget' : dictGet ((pass1List vc rules g.components).map
      (fun x => (x.id, x.classification))) d'.id = some d'.classification :=
    dictGet_eq_of_nodup hkeys hpair
  rw [hid] at hget'
  have htcls : tcls = d'.classification := by
    rw [hget'] at hget
    exact (Option.some.inj hget).symm
  refine ⟨{ d' with relationships := d'.relationships.filter (pass2RelOk rules ((pass1List vc rules g.components).map (·.id)) ((pass1List vc rules g.components).map (fun x => (x.id, x.classification))) d'.classification) }, ?_, hid, rule, hrule, ?_⟩
  · unfold prune_by_ontology pass2List
    exact List.mem_map_of_mem _ hd'
  · rw [← htcls]
    exact hcases

/-- Witness for C2 on the two-component graph: the `supports` edge from
component `a` is retained and checks out against the ontology rule. -/
theorem prune_by_ontology_relationship_sound_witness :
    ∃ c' ∈ (prune_by_ontology smallClasses smallRules twoCompGraph).components,
      c'.id = "b" ∧
      ∃ rule, dictGet smallRules "supports" = some rule ∧
        ((("outgoing" : String) = "outgoing" ∧ rule.valid_sources.contains "Claim" = true ∧
            rule.valid_targets.contains c'.classification = true) ∨
         (("outgoing" : String) = "incoming" ∧ rule.valid_sources.contains c'.classification = true ∧
            rule.valid_targets.contains "Claim" = true)) := by
  have h := prune_by_ontology_relationship_sound smallClasses smallRules twoCompGraph
    (by decide)
    { id := "a", chapter_title := "Ch", section_id := none, paragraph_id := 1,
      text := "A", start_offset := 0, end_offset := 1, classification := "Claim",
      relationships := [{ target_id := "b", type := "supports", direction := "outgoing", justification := "j1" }] }
    (by decide)
    { target_id := "b", type := "supports", direction := "outgoing", justification := "j1" }
    (by decide)
  exact h

/-- The dedup loop emits no triple twice and none from `seen`. -/
theorem dedupRecords_nodup (l : List RelRecord) :
    ∀ seen : List (Nat × Nat × String),
      ((dedupRecords l seen).map relTriple).Nodup ∧
      ∀ t ∈ (dedupRecords l seen).map relTriple, ¬ seen.contains t = true := by
  induction l with
  | nil => intro seen; simp [dedupRecords]
  | cons r rest ih =>
    intro seen
    unfold dedupRecords
    by_cases hs : seen.contains (relTriple r)
    · rw [if_pos hs]; exact ih seen
    · rw [if_neg hs]
      obtain ⟨ihnd, ihseen⟩ := ih (relTriple r :: seen)
      refine ⟨?_, ?_⟩
      · rw [List.map_cons, List.nodup_cons]
        refine ⟨fun hmem => ?_, ihnd⟩
        exact ihseen _ hmem (by simp)
      · rw [List.map_cons]
        intro t ht
        rcases List.mem_cons.mp ht with rfl | hmem
        · exact fun hc => hs hc
        · intro hc
          refine ihseen t hmem ?_
          simp only [List.contains_cons, Bool.or_eq_true]
          exact Or.inr hc

/-- Every triple present in the input list is represented in the dedup
output, provided it is not already in `seen`. -/
theorem dedupRecords_covers (l : List RelRecord) :
    ∀ (seen : List (Nat × Nat × String)) (rec : RelRecord), rec ∈ l →
      ¬ seen.contains (relTriple rec) = true →
      ∃ rec' ∈ dedupRecords l seen, relTriple rec' = relTriple rec := by
  induction l with
  | nil => intro seen rec h; cases h
  | cons r rest ih =>
    intro seen rec hmem hseen
    unfold dedupRecords
    by_cases hs : seen.contains (relTriple r)
    · rw [if_pos hs]
      rcases List.mem_cons.mp hmem with rfl | hm
      · exact absurd hs hseen
      · exact ih seen rec hm hseen
    · rw [if_neg hs]
      rcases List.mem_cons.mp hmem with rfl | hm
      · exact ⟨_, List.mem_cons_self .., rfl⟩
      · by_cases heq : relTriple rec = relTriple r
        · exact ⟨r, List.mem_cons_self .., heq.symm⟩
        · have hnotseen : ¬ (relTriple r :: seen).contains (relTriple rec) = true := by
            intro hc
            rcases List.mem_cons.mp (by simpa using hc) with h1 | h2
            · exact heq h1
            · exact hseen (by simpa using h2)
          obtain ⟨rec', hrec', htr⟩ := ih (relTriple r :: seen) rec hm hnotseen
          exact ⟨rec', List.mem_cons_of_mem _ hrec', htr⟩

/-- The record materialized from one relationship of a component. -/
theorem materializeComponent_mem {atomIdMap : List (String × Nat)} {docId : Nat}
    {c : Component} {r : Relationship} (hr : r ∈ c.relationships)
    {sg tg : String} {s t : Nat}
    (hdir : (r.direction = "outgoing" ∧ sg = c.id ∧ tg = r.target_id) ∨
            (r.direction = "incoming" ∧ sg = r.target_id ∧ tg = c.id))
    (hs : dictGet atomIdMap sg = some s) (ht : dictGet atomIdMap tg = some t) :
    ({ document_id := docId, source_atom_id := s, target_atom_id := t,
       type := r.type, justification := r.justification } : RelRecord) ∈
      materializeComponent atomIdMap docId c := by
  unfold materializeComponent
  rw [List.mem_filterMap]
  refine ⟨r, hr, ?_⟩
  rcases hdir with ⟨hd, rfl, rfl⟩ | ⟨hd, rfl, rfl⟩
  · simp [hd, hs, ht]
  · simp [hd, hs, ht]

/-- C4: `get_relationships_from_graph` materializes every relationship
whose endpoints the atom id map covers, swapping source and target
exactly on `incoming`, and the output has pairwise distinct
`(source, target, type)` triples. -/
theorem get_relationships_canonical_and_deduped (g : Graph) (docId : Nat)
    (atomIdMap : List (String × Nat))
    (hdir : ∀ c ∈ g.components, ∀ r ∈ c.relationships,
      r.direction = "outgoing" ∨ r.direction = "incoming")
    (hcov : ∀ c ∈ g.components, (dictGet atomIdMap c.id).isSome ∧
      ∀ r ∈ c.relationships, (dictGet atomIdMap r.target_id).isSome) :
    ((get_relationships_from_graph g docId atomIdMap).map relTriple).Nodup ∧
    ∀ c ∈ g.components, ∀ r ∈ c.relationships,
      ∃ rec ∈ get_relationships_from_graph g docId atomIdMap,
        rec.type = r.type ∧
        ((r.direction = "outgoing" ∧ dictGet atomIdMap c.id = some rec.source_atom_id ∧
            dictGet atomIdMap r.target_id = some rec.target_atom_id) ∨
         (r.direction = "incoming" ∧ dictGet atomIdMap r.target_id = some rec.source_atom_id ∧
            dictGet atomIdMap c.id = some rec.target_atom_id)) := by
  constructor
  · exact (dedupRecords_nodup _ []).1
  · intro c hc r hr
    obtain ⟨hcs, hct⟩ := hcov c hc
    obtain ⟨s, hs⟩ := Option.isSome_iff_exists.mp hcs
    obtain ⟨t, ht⟩ := Option.isSome_iff_exists.mp (hct r hr)
    rcases hdir c hc r hr with hd | hd
    · have hmem := @materializeComponent_mem atomIdMap docId c r hr _ _ _ _
        (Or.inl ⟨hd, rfl, rfl⟩) hs ht
      have hflat : ({ document_id := docId, source_atom_id := s, target_atom_id := t, type := r.type, justification := r.justification } : RelRecord) ∈ g.components.flatMap (materializeComponent atomIdMap docId) :=
        List.mem_flatMap.mpr ⟨c, hc, hmem⟩
      obtain ⟨rec', hrec', htr⟩ :=
        dedupRecords_covers _ [] _ hflat (by simp [List.contains])
      refine ⟨rec', hrec', ?_⟩
      have h1 : rec'.source_atom_id = s ∧ rec'.target_atom_id = t ∧ rec'.type = r.type := by
        have := htr
        unfold relTriple at this
        exact ⟨congrArg (·.1) this, congrArg (·.2.1) this, congrArg (·.2.2) this⟩
      exact ⟨h1.2.2, Or.inl ⟨hd, by rw [h1.1]; exact hs, by rw [h1.2.1]; exact ht⟩⟩
    · have hmem := @materializeComponent_mem atomIdMap docId c r hr _ _ _ _
        (Or.inr ⟨hd, rfl, rfl⟩) ht hs
      have hflat : ({ document_id := docId, source_atom_id := t, target_atom_id := s, type := r.type, justification := r.justification } : RelRecord) ∈ g.components.flatMap (materializeComponent atomIdMap docId) :=
        List.mem_flatMap.mpr ⟨c, hc, hmem⟩
      obtain ⟨rec', hrec', htr⟩ :=
        dedupRecords_covers _ [] _ hflat (by simp [List.contains])
      refine ⟨rec', hrec', ?_⟩
      have h1 : rec'.source_atom_id = t ∧ rec'.target_atom_id = s ∧ rec'.type = r.type := by
        have := htr
        unfold relTriple at this
        exact ⟨congrArg (·.1) this, congrArg (·.2.1) this, congrArg (·.2.2) this⟩
      exact ⟨h1.2.2, Or.inr ⟨hd, by rw [h1.1]; exact ht, by rw [h1.2.1]; exact hs⟩⟩

/-- Witness for C4 on the two-component graph: the incoming duplicate
of the `supports` edge collapses onto a single record with distinct
triples. -/
theorem get_relationships_canonical_and_deduped_witness :
    ((get_relationships_from_graph twoCompGraph 7 twoCompMap).map relTriple).Nodup ∧
    ∃ rec ∈ get_relationships_from_graph twoCompGraph 7 twoCompMap,
      rec.type = "supports" ∧ rec.source_atom_id = 10 ∧ rec.target_atom_id = 11 := by
  have h := get_relationships_canonical_and_deduped twoCompGraph 7 twoCompMap
    (by decide) (by decide)
  refine ⟨h.1, ?_⟩
  obtain ⟨rec, hrec, hty, hcase⟩ := h.2
    { id := "a", chapter_title := "Ch", section_id := none, paragraph_id := 1,
      text := "A", start_offset := 0, end_offset := 1, classification := "Claim",
      relationships := [{ target_id := "b", type := "supports", direction := "outgoing", justification := "j1" }] }
    (by decide)
    { target_id := "b", type := "supports", direction := "outgoing", justification := "j1" }
    (by decide)
  rcases hcase with ⟨_, hsrc, htgt⟩ | ⟨hbad, _, _⟩
  · refine ⟨rec, hrec, hty, ?_, ?_⟩
    · have : dictGet twoCompMap "a" = some 10 := by decide
      rw [this] at hsrc
      exact (Option.some.inj hsrc).symm
    · have : dictGet twoCompMap "b" = some 11 := by decide
      rw [this] at htgt
      exact (Option.some.inj htgt).symm
  · exact absurd hbad (by decide)

/-- The invariant of the chapter post-filter scan, relative to the
chapters still to be processed: a positive maximum implies a retained
chapter exists, retained chapters are well-formed ranges, and the most
recently retained chapter ends where the next unprocessed one starts. -/
def ChapterScanInv (st : ChapterScanState) (upcoming : List RawChapter) : Prop :=
  (0 < st.maxNum → st.accRev ≠ []) ∧
  (∀ x ∈ st.accRev, x.start_offset ≤ x.end_offset) ∧
  (∀ h, st.accRev.head? = some h → ∀ nxt, upcoming.head? = some nxt →
    h.end_offset = nxt.start_offset)

/-- One scan step preserves the invariant. -/
theorem chapterScanStep_inv {st : ChapterScanState} {ch : RawChapter}
    {rest : List RawChapter}
    (hinv : ChapterScanInv st (ch :: rest))
    (hwf : ch.start_offset ≤ ch.end_offset)
    (hch : ∀ nxt, rest.head? = some nxt → ch.end_offset = nxt.start_offset) :
    ChapterScanInv (chapterScanStep st ch) rest := by
  obtain ⟨h1, h2, h3⟩ := hinv
  unfold chapterScanStep
  have hext : ∀ prev accTail, st.accRev = prev :: accTail →
      ChapterScanInv { st with accRev := { prev with end_offset := ch.end_offset } :: accTail } rest := by
    intro prev accTail hacc
    have hprev : prev.start_offset ≤ prev.end_offset :=
      h2 prev (by rw [hacc]; exact List.mem_cons_self ..)
    have hpe : prev.end_offset = ch.start_offset :=
      h3 prev (by rw [hacc]; rfl) ch rfl
    refine ⟨fun _ => by simp, ?_, ?_⟩
    · intro x hx
      rcases List.mem_cons.mp hx with rfl | hx'
    <;> first
      | exact le_trans hprev (by rw [hpe]; exact hwf)
      | exact h2 _ (by rw [hacc]; exact List.mem_cons_of_mem _ hx')
    · intro h hh nxt hnxt
      rw [Option.some.inj hh.symm]
      exact hch nxt hnxt
  cases hn : searchChapterNum ch.title.data with
  | some n =>
    dsimp only
    by_cases hlt : n < st.maxNum
    · rw [if_pos hlt]
      cases hacc : st.accRev with
      | nil => exact absurd (hacc ▸ h1 (Nat.pos_of_ne_zero (by omega))) (by simp)
      | cons prev accTail => exact hext prev accTail hacc
    · rw [if_neg hlt]
      by_cases hseen : st.seen.contains (n, ch.title)
      · rw [if_pos hseen]
        cases hacc : st.accRev with
        | nil =>
          refine ⟨h1, h2, ?_⟩
          intro h hh nxt hnxt
          rw [hacc] at hh; cases hh
        | cons prev accTail => exact hext prev accTail hacc
      · rw [if_neg hseen]
        refine ⟨fun _ => by simp, ?_, ?_⟩
        · intro x hx
          rcases List.mem_cons.mp hx with rfl | hx'
          · exact hwf
          · exact h2 _ hx'
        · intro h hh nxt hnxt
          rw [Option.some.inj hh.symm]
          exact hch nxt hnxt
  | none =>
    dsimp only
    refine ⟨fun _ => by simp, ?_, ?_⟩
    · intro x hx
      rcases List.mem_cons.mp hx with rfl | hx'
      · exact hwf
      · exact h2 _ hx'
    · intro h hh nxt hnxt
      rw [Option.some.inj hh.symm]
      exact hch nxt hnxt

/-- One scan step preserves the presence of a retained chapter covering
a given range. -/
theorem chapterScanStep_cover {st : ChapterScanState} {ch : RawChapter}
    {a b : Nat}
    (hinv : ChapterScanInv st (ch :: [])) (hwf : ch.start_offset ≤ ch.end_offset)
    (hcov : ∃ r ∈ st.accRev, r.start_offset ≤ a ∧ b ≤ r.end_offset) :
    ∃ r ∈ (chapterScanStep st ch).accRev, r.start_offset ≤ a ∧ b ≤ r.end_offset := by
  obtain ⟨_, h2, h3⟩ := hinv
  obtain ⟨r, hr, hra, hrb⟩ := hcov
  unfold chapterScanStep
  have hext : ∀ prev accTail, st.accRev = prev :: accTail →
      ∃ r' ∈ { prev with end_offset := ch.end_offset } :: accTail,
        r'.start_offset ≤ a ∧ b ≤ r'.end_offset := by
    intro prev accTail hacc
    rw [hacc] at hr
    rcases List.mem_cons.mp hr with rfl | hr'
    · refine ⟨{ r with end_offset := ch.end_offset }, List.mem_cons_self .., hra, ?_⟩
      have hpe : r.end_offset = ch.start_offset := h3 r (by rw [hacc]; rfl) ch rfl
      calc b ≤ r.end_offset := hrb
        _ = ch.start_offset := hpe
        _ ≤ ch.end_offset := hwf
    · exact ⟨r, List.mem_cons_of_mem _ hr', hra, hrb⟩
  cases hn : searchChapterNum ch.title.data with
  | some n =>
    dsimp only
    by_cases hlt : n < st.maxNum
    · rw [if_pos hlt]
      cases hacc : st.accRev with
      | nil => rw [hacc] at hr; cases hr
      | cons prev accTail => exact hext prev accTail hacc
    · rw [if_neg hlt]
      by_cases hseen : st.seen.contains (n, ch.title)
      · rw [if_pos hseen]
        cases hacc : st.accRev with
        | nil => rw [hacc] at hr; cases hr
        | cons prev accTail => exact hext prev accTail hacc
      · rw [if_neg hseen]
        exact ⟨r, List.mem_cons_of_mem _ hr, hra, hrb⟩
  | none =>
    dsimp only
    exact ⟨r, List.mem_cons_of_mem _ hr, hra, hrb⟩

/-- The scan preserves the invariant across a whole chapter list. -/
theorem chapterScan_inv (l : List RawChapter) :
    ∀ (st : ChapterScanState) (rest : List RawChapter),
      ChapterScanInv st (l ++ rest) →
      List.Chain' (fun x y => x.end_offset = y.start_offset) (l ++ rest) →
      (∀ x ∈ l, x.start_offset ≤ x.end_offset) →
      ChapterScanInv (chapterScan l st) rest := by
  induction l with
  | nil => intro st rest hinv _ _; exact hinv
  | cons ch l' ih =>
    intro st rest hinv hchain hwf
    have hchain' : List.Chain' (fun x y => x.end_offset = y.start_offset) (l' ++ rest) :=
      (List.chain'_cons'.mp hchain).2
    have hch : ∀ nxt, (l' ++ rest).head? = some nxt → ch.end_offset = nxt.start_offset := by
      intro nxt hnxt
      exact (List.chain'_cons'.mp hchain).1 nxt hnxt
    have hstep := @chapterScanStep_inv _ _ (l' ++ rest) hinv
      (hwf ch (List.mem_cons_self ..)) hch
    exact ih (chapterScanStep st ch) rest hstep hchain'
      (fun x hx => hwf x (List.mem_cons_of_mem _ hx))

/-- The scan preserves range coverage across a whole chapter list. -/
theorem chapterScan_cover (l : List RawChapter) :
    ∀ (st : ChapterScanState) {a b : Nat},
      ChapterScanInv st l →
      List.Chain' (fun x y => x.end_offset = y.start_offset) l →
      (∀ x ∈ l, x.start_offset ≤ x.end_offset) →
      (∃ r ∈ st.accRev, r.start_offset ≤ a ∧ b ≤ r.end_offset) →
      ∃ r ∈ (chapterScan l st).accRev, r.start_offset ≤ a ∧ b ≤ r.end_offset := by
  induction l with
  | nil => intro st a b _ _ _ hcov; exact hcov
  | cons ch l' ih =>
    intro st a b hinv hchain hwf hcov
    have hinv1 : ChapterScanInv st (ch :: []) :=
      ⟨hinv.1, hinv.2.1, fun h hh nxt hnxt => hinv.2.2 h hh nxt (by simpa using hnxt)⟩
    have hcov' := chapterScanStep_cover hinv1 (hwf ch (List.mem_cons_self ..)) hcov
    have hinv' := @chapterScanStep_inv _ _ l' hinv
      (hwf ch (List.mem_cons_self ..))
      (fun nxt hnxt => (List.chain'_cons'.mp hchain).1 nxt hnxt)
    exact ih (chapterScanStep st ch) hinv' (List.chain'_cons'.mp hchain).2
      (fun x hx => hwf x (List.mem_cons_of_mem _ hx)) hcov'

/-- C8: in the `find_chapters` post-filter, a chapter whose parsed
number regresses below the maximum seen so far is not dropped: the
retained chapter list contains a chapter whose range covers it (the
preceding retained chapter, its `end_offset` extended).  Hypotheses:
consecutive candidates are contiguous (`end_offset` = next
`start_offset`, as the main-pattern loop produces them) and ranges are
well-formed. -/
theorem find_chapters_regression_merged
    (pre : List RawChapter) (c : RawChapter) (post : List RawChapter)
    (hchain : List.Chain' (fun x y => x.end_offset = y.start_offset) (pre ++ c :: post))
    (hwf : ∀ x ∈ pre ++ c :: post, x.start_offset ≤ x.end_offset)
    (n : Nat) (hn : searchChapterNum c.title.data = some n)
    (hreg : n < (chapterScan pre { accRev := [], seen := [], maxNum := 0 }).maxNum) :
    ∃ r ∈ find_chapters_filter (pre ++ c :: post),
      r.start_offset ≤ c.start_offset ∧ c.end_offset ≤ r.end_offset := by
  set st₀ : ChapterScanState := { accRev := [], seen := [], maxNum := 0 } with hst₀
  have hinv₀ : ChapterScanInv st₀ (pre ++ c :: post) := by
    refine ⟨fun h => absurd h (by simp [hst₀]), by simp [hst₀], ?_⟩
    intro h hh
    simp [hst₀] at hh
  have hinvPre := chapterScan_inv pre st₀ (c :: post) hinv₀ hchain
    (fun x hx => hwf x (List.mem_append_left _ hx))
  set stPre := chapterScan pre st₀ with hstPre
  have hacc : stPre.accRev ≠ [] := hinvPre.1 (Nat.pos_of_ne_zero (by omega))
  obtain ⟨prev, accTail, haccEq⟩ := List.exists_cons_of_ne_nil hacc
  have hstep : chapterScanStep stPre c =
      { stPre with accRev := { prev with end_offset := c.end_offset } :: accTail } := by
    unfold chapterScanStep
    rw [hn]
    dsimp only
    rw [if_pos hreg, haccEq]
  have hprevwf : prev.start_offset ≤ prev.end_offset :=
    hinvPre.2.1 prev (by rw [haccEq]; exact List.mem_cons_self ..)
  have hpe : prev.end_offset = c.start_offset :=
    hinvPre.2.2 prev (by rw [haccEq]; rfl) c rfl
  have hchainPost : List.Chain' (fun x y => x.end_offset = y.start_offset) (c :: post) :=
    ((List.chain'_append.mp hchain).2.1)
  have hinvStep := @chapterScanStep_inv _ _ post hinvPre
    (hwf c (List.mem_append_right _ (List.mem_cons_self ..)))
    (fun nxt hnxt => (List.chain'_cons'.mp hchainPost).1 nxt hnxt)
  have hcovStep : ∃ r ∈ (chapterScanStep stPre c).accRev,
      r.start_offset ≤ c.start_offset ∧ c.end_offset ≤ r.end_offset := by
    rw [hstep]
    refine ⟨{ prev with end_offset := c.end_offset }, List.mem_cons_self .., ?_, le_refl _⟩
    calc prev.start_offset ≤ prev.end_offset := hprevwf
      _ = c.start_offset := hpe
  have hfinal := chapterScan_cover post (chapterScanStep stPre c) hinvStep
    (List.chain'_cons'.mp hchainPost).2
    (fun x hx => hwf x (List.mem_append_right _ (List.mem_cons_of_mem _ hx))) hcovStep
  obtain ⟨r, hr, hra, hrb⟩ := hfinal
  refine ⟨r, ?_, hra, hrb⟩
  unfold find_chapters_filter
  rw [List.mem_reverse]
  have : chapterScan (pre ++ c :: post) st₀ = chapterScan post (chapterScanStep stPre c) := by
    unfold chapterScan
    rw [List.foldl_append, List.foldl_cons]
    rfl
  rw [this]
  exact hr

/-- Witness for C8: `Chapter 2` after `Chapter 3` is merged into the
latter, whose range then covers it. -/
theorem find_chapters_regression_merged_witness :
    ∃ r ∈ find_chapters_filter regressChapters,
      r.start_offset ≤ 200 ∧ 300 ≤ r.end_offset := by
  have h := find_chapters_regression_merged
    [{ title := "Chapter 1: A", start_offset := 0, end_offset := 100, header_end_offset := 10 },
     { title := "Chapter 3: B", start_offset := 100, end_offset := 200, header_end_offset := 110 }]
    { title := "Chapter 2: C", start_offset := 200, end_offset := 300, header_end_offset := 210 }
    [] (by simp [List.chain'_cons]) (by decide) 2 (by decide) (by decide)
  simpa [regressChapters] using h

/-- A note-marker iteration does nothing when the marker is already
isolated. -/
theorem preprocessNoteStep_noop {t : Str} {m : MatchSpan}
    (h : isolatedNoteOk t m = true) : preprocessNoteStep t m = t := by
  unfold isolatedNoteOk at h
  rw [Bool.and_eq_true, Bool.and_eq_true, Bool.and_eq_true] at h
  obtain ⟨⟨⟨hb, ha⟩, h3⟩, h4⟩ := h
  have h3' : (decide (0 < m.mstart) && !((t.take m.mstart).getLast? == some '\n')) = false := by
    rcases (by simpa using h3 : m.mstart = 0 ∨ (t.take m.mstart).getLast? = some '\n') with h | h <;>
      simp [h]
  have h4' : (decide (m.mend < t.length) && !(t[m.mend]? == some '\n')) = false := by
    rcases (by simpa using h4 : t.length ≤ m.mend ∨ t[m.mend]? = some '\n') with h | h
    · simp [Nat.not_lt.mpr h]
    · simp [h]
  simp [preprocessNoteStep, hb, ha, h3', h4']

/-- Folding no-op steps is a no-op. -/
theorem foldl_noop {α β : Type} (f : α → β → α) (t : α) :
    ∀ l : List β, (∀ m ∈ l, f t m = t) → l.foldl f t = t := by
  intro l
  induction l with
  | nil => intro _; rfl
  | cons m rest ih =>
    intro h
    rw [List.foldl_cons, h m (List.mem_cons_self ..)]
    exact ih (fun x hx => h x (List.mem_cons_of_mem _ hx))

/-- `replaceAllGo` ignores fuel beyond the text length (a nonempty
pattern consumes at least one character per step). -/
theorem replaceAllGo_fuel (pat rep : Str) (hpat : pat ≠ []) :
    ∀ (n : Nat) (s : Str), s.length ≤ n → ∀ (fuel₁ fuel₂ : Nat), s.length < fuel₁ → s.length < fuel₂ →
      replaceAllGo fuel₁ pat rep s = replaceAllGo fuel₂ pat rep s := by
  intro n
  induction n with
  | zero =>
    intro s hs fuel₁ fuel₂ h1 h2
    have hsnil : s = [] := List.length_eq_zero.mp (Nat.le_zero.mp hs)
    subst hsnil
    cases fuel₁ with
    | zero => omega
    | succ f₁ =>
      cases fuel₂ with
      | zero => omega
      | succ f₂ => rfl
  | succ n ih =>
    intro s hs fuel₁ fuel₂ h1 h2
    cases fuel₁ with
    | zero => omega
    | succ f₁ =>
      cases fuel₂ with
      | zero => omega
      | succ f₂ =>
        cases s with
        | nil => rfl
        | cons c cs =>
          have hplen : 0 < pat.length := List.length_pos.mpr hpat
          unfold replaceAllGo
          dsimp only
          by_cases hp : pat.isPrefixOf (c :: cs)
          · rw [if_pos hp, if_pos hp]
            congr 1
            have hdl : ((c :: cs).drop pat.length).length = (c :: cs).length - pat.length :=
              List.length_drop _ _
            apply ih
            · rw [hdl]; simp only [List.length_cons] at hs ⊢; omega
            · rw [hdl]; simp only [List.length_cons] at h1 ⊢; omega
            · rw [hdl]; simp only [List.length_cons] at h2 ⊢; omega
          · rw [if_neg hp, if_neg hp]
            congr 1
            apply ih
            · simp only [List.length_cons] at hs; omega
            · simp only [List.length_cons] at h1; omega
            · simp only [List.length_cons] at h2; omega

/-- Step lemma: a character that does not start the placeholder is
copied by the restore scan. -/
theorem restorePB_cons {c : Char} (cs : Str) (hc : c ≠ '<') :
    restoreParagraphBreaks (c :: cs) = c :: restoreParagraphBreaks cs := by
  have hcc : ('<' == c) = false := by
    cases hx : ('<' == c) with
    | false => rfl
    | true => exact absurd (eq_of_beq hx).symm hc
  have hnp : pbPlaceholder.isPrefixOf (c :: cs) = false := by
    show ('<' == c && _) = false
    rw [hcc]
    rfl
  show replaceAllGo ((c :: cs).length + 1) pbPlaceholder ['\n', '\n'] (c :: cs) = _
  unfold replaceAllGo
  dsimp only [List.length_cons]
  rw [hnp]
  simp only [Bool.false_eq_true, if_false]
  rfl

/-- Step lemma: an occurrence of the placeholder is replaced by a
paragraph break. -/
theorem restorePB_placeholder (rest : Str) :
    restoreParagraphBreaks (pbPlaceholder ++ rest) =
      '\n' :: '\n' :: restoreParagraphBreaks rest := by
  have hpre : pbPlaceholder.isPrefixOf (pbPlaceholder ++ rest) = true := by
    rw [List.isPrefixOf_iff_prefix]
    exact ⟨rest, rfl⟩
  have hlen : (pbPlaceholder ++ rest).length + 1 = rest.length + 22 := by
    simp [pbPlaceholder]
  show replaceAllGo ((pbPlaceholder ++ rest).length + 1) pbPlaceholder ['\n', '\n']
      (pbPlaceholder ++ rest) = _
  rw [hlen]
  have hcons : ∃ p ps, pbPlaceholder ++ rest = p :: ps := ⟨'<', _, rfl⟩
  obtain ⟨p, ps, hps⟩ := hcons
  rw [hps]
  unfold replaceAllGo
  dsimp only
  rw [← hps, hpre]
  simp only [if_true]
  have hdrop : (pbPlaceholder ++ rest).drop pbPlaceholder.length = rest :=
    List.drop_left _ _
  rw [hdrop]
  have : replaceAllGo (rest.length + 21) pbPlaceholder ['\n', '\n'] rest =
      replaceAllGo (rest.length + 1) pbPlaceholder ['\n', '\n'] rest :=
    replaceAllGo_fuel pbPlaceholder ['\n', '\n'] (by simp [pbPlaceholder]) rest.length rest
      (le_refl _) _ _ (by omega) (by omega)
  rw [this]
  rfl

/-- A newline-triple makes `hasTripleNl` true. -/
theorem hasTripleNl_three (rest : Str) : hasTripleNl ('\n' :: '\n' :: '\n' :: rest) = true := by
  simp [hasTripleNl]

/-- `hasTripleNl` is monotone under dropping the head. -/
theorem hasTripleNl_tail {c : Char} {cs : Str} (h : hasTripleNl (c :: cs) = false) :
    hasTripleNl cs = false := by
  match cs, h with
  | [], _ => rfl
  | [b], _ => rfl
  | b :: d :: rest, h =>
    unfold hasTripleNl at h
    rw [Bool.or_eq_false_iff] at h
    exact h.2

/-- `hasTripleNl` is monotone under dropping a prefix. -/
theorem hasTripleNl_append {l t : Str} (h : hasTripleNl (l ++ t) = false) :
    hasTripleNl t = false := by
  induction l with
  | nil => exact h
  | cons a l' ih => exact ih (hasTripleNl_tail h)

/-- Only runs of at most two pending newlines are compatible with
`hasTripleNl = false`. -/
theorem pending_le_two {n : Nat} {t : Str}
    (h : hasTripleNl (List.replicate n '\n' ++ t) = false) : n ≤ 2 := by
  by_contra hgt
  obtain ⟨m, rfl⟩ : ∃ m, n = m + 3 := ⟨n - 3, by omega⟩
  rw [show List.replicate (m + 3) '\n' = '\n' :: '\n' :: '\n' :: List.replicate m '\n' by
        rw [show m + 3 = 3 + m from Nat.add_comm m 3, List.replicate_add]; rfl] at h
  rw [List.cons_append, List.cons_append, List.cons_append, hasTripleNl_three] at h
  cases h

/-- Pending newlines can be folded into the text. -/
theorem replicate_append_nl (n : Nat) (l : Str) :
    List.replicate n '\n' ++ '\n' :: l = List.replicate (n + 1) '\n' ++ l := by
  rw [List.replicate_succ']
  simp

/-- The restore scan inverts the placeholder substitution on text with
no `<` and no triple newline. -/
theorem restorePB_subPBGo (t : Str) : ∀ n : Nat, '<' ∉ t →
    hasTripleNl (List.replicate n '\n' ++ t) = false →
    restoreParagraphBreaks (subPBGo t n) = List.replicate n '\n' ++ t := by
  induction t with
  | nil =>
    intro n _ htr
    have hn2 := pending_le_two htr
    rw [List.append_nil]
    match n, hn2 with
    | 0, _ => rfl
    | 1, _ =>
      show restoreParagraphBreaks ['\n'] = ['\n']
      rw [restorePB_cons [] (by decide)]
      rfl
    | 2, _ =>
      show restoreParagraphBreaks pbPlaceholder = ['\n', '\n']
      rw [show pbPlaceholder = pbPlaceholder ++ [] by simp, restorePB_placeholder]
      rfl
  | cons c cs ih =>
    intro n hlt htr
    by_cases hc : c = '\n'
    · subst hc
      rw [replicate_append_nl] at htr
      have h1 : subPBGo ('\n' :: cs) n = subPBGo cs (n + 1) := by
        simp [subPBGo]
      rw [h1, ih (n + 1) (fun hx => hlt (List.mem_cons_of_mem _ hx)) htr,
        ← replicate_append_nl]
    · have hcb : (c == '\n') = false := by
        cases hx : (c == '\n') with
        | false => rfl
        | true => exact absurd (eq_of_beq hx) hc
      have h1 : subPBGo (c :: cs) n = emitNlRun n ++ c :: subPBGo cs 0 := by
        simp [subPBGo, hcb]
      have hn2 := pending_le_two htr
      have hc' : c ≠ '<' := fun hx => hlt (by rw [hx]; exact List.mem_cons_self ..)
      have htr' : hasTripleNl cs = false := hasTripleNl_tail (hasTripleNl_append htr)
      have hih := ih 0 (fun hx => hlt (List.mem_cons_of_mem _ hx)) (by simpa using htr')
      rw [h1]
      match n, hn2 with
      | 0, _ =>
        show restoreParagraphBreaks (c :: subPBGo cs 0) = List.replicate 0 '\n' ++ c :: cs
        rw [restorePB_cons _ hc', hih]
        rfl
      | 1, _ =>
        show restoreParagraphBreaks ('\n' :: c :: subPBGo cs 0) = List.replicate 1 '\n' ++ c :: cs
        rw [restorePB_cons _ (by decide), restorePB_cons _ hc', hih]
        rfl
      | 2, _ =>
        show restoreParagraphBreaks (pbPlaceholder ++ c :: subPBGo cs 0) =
          List.replicate 2 '\n' ++ c :: cs
        rw [restorePB_placeholder, restorePB_cons _ hc', hih]
        rfl

/-- `splitNl` never returns an empty list. -/
theorem splitNl_ne_nil (s : Str) : splitNl s ≠ [] := by
  cases s with
  | nil => simp [splitNl]
  | cons c cs =>
    unfold splitNl
    by_cases hc : (c == '\n') = true
    · rw [hc]; simp
    · rw [show (c == '\n') = false by simpa using hc]
      simp only [Bool.false_eq_true, if_false]
      cases hs : splitNl cs <;> simp

/-- Joining the newline-split of a text restores the text. -/
theorem joinNl_splitNl (s : Str) : joinNl (splitNl s) = s := by
  induction s with
  | nil => rfl
  | cons c cs ih =>
    unfold splitNl
    by_cases hc : (c == '\n') = true
    · rw [hc]
      simp only [if_true]
      have hcn : c = '\n' := eq_of_beq hc
      cases hs : splitNl cs with
      | nil => exact absurd hs (splitNl_ne_nil cs)
      | cons l ls =>
        show joinNl ([] :: l :: ls) = c :: cs
        unfold joinNl
        rw [hcn, List.nil_append, show joinNl (l :: ls) = cs by rw [← hs]; exact ih]
    · rw [show (c == '\n') = false by simpa using hc]
      simp only [Bool.false_eq_true, if_false]
      cases hs : splitNl cs with
      | nil => exact absurd hs (splitNl_ne_nil cs)
      | cons l ls =>
        cases ls with
        | nil =>
          show joinNl [c :: l] = c :: cs
          unfold joinNl
          rw [← ih, hs]
          rfl
        | cons l2 ls2 =>
          show joinNl ((c :: l) :: l2 :: ls2) = c :: cs
          unfold joinNl
          rw [List.cons_append, ← ih, hs]
          rfl

/-- The line loop preserves every line when no adjacent pair is
joinable. -/
theorem processLines_id (ls : List Str)
    (h : List.Chain' (fun a b => shouldJoin (pyStrip a) (pyStrip b) = false) ls) :
    processLines ls = ls := by
  induction ls with
  | nil => rfl
  | cons l rest ih =>
    unfold processLines
    by_cases he : (pyStrip l).isEmpty = true
    · rw [if_pos he, ih ((List.chain'_cons'.mp h).2)]
    · rw [if_neg (by simpa using he)]
      cases rest with
      | nil => rfl
      | cons nl rest2 =>
        have hsj : shouldJoin (pyStrip l) (pyStrip nl) = false :=
          (List.chain'_cons'.mp h).1 nl rfl
        dsimp only
        rw [hsj]
        simp only [Bool.false_eq_true, if_false]
        rw [ih ((List.chain'_cons'.mp h).2)]

/-- C6 (amended): each normalization transform is a no-op on text that
is already fully normalized — every note marker isolated on its own
newline-bounded line; no triple newline, no `<`, and no joinable
adjacent line pair for the de-wrap transform.  (Idempotence in general
is refuted by `normalization_not_idempotent`.) -/
theorem normalization_noop_on_normalized :
    (∀ t : Str, (∀ m ∈ finditerNote t, isolatedNoteOk t m = true) →
      preprocess_note_references t = t) ∧
    (∀ t : Str, '<' ∉ t → hasTripleNl t = false →
      List.Chain' (fun a b => shouldJoin (pyStrip a) (pyStrip b) = false)
        (splitNl (subParagraphBreaks t)) →
      remove_extraneous_newlines t = t) := by
  constructor
  · intro t h
    unfold preprocess_note_references
    apply foldl_noop
    intro m hm
    exact preprocessNoteStep_noop (h m (List.mem_reverse.mp hm))
  · intro t hlt htr hch
    unfold remove_extraneous_newlines
    by_cases he : t.isEmpty
    · rw [if_pos he]
    · rw [if_neg he]
      rw [processLines_id _ hch, joinNl_splitNl]
      have := restorePB_subPBGo t 0 hlt (by simpa using htr)
      simpa using this

/-- Witness for C6 (amended) at two concrete normalized texts. -/
theorem normalization_noop_on_normalized_witness :
    preprocess_note_references noteIsolatedText = noteIsolatedText ∧
    remove_extraneous_newlines dewrapStableText = dewrapStableText := by
  constructor
  · exact normalization_noop_on_normalized.1 noteIsolatedText (by decide)
  · refine normalization_noop_on_normalized.2 dewrapStableText (by decide) (by decide) ?_
    show List.Chain' _ (splitNl (subParagraphBreaks dewrapStableText))
    have hsplit : splitNl (subParagraphBreaks dewrapStableText) =
        ["First line.".data, "Second.".data] := by decide
    rw [hsplit]
    exact List.chain'_cons.mpr ⟨by decide, List.chain'_singleton _⟩

/-- C6 (counterexample): neither transform is idempotent.  A marker
alone on a space-padded line is corrupted by the stale-offset double
splice, and a second de-wrap pass joins a pair the first pass left. -/
theorem normalization_not_idempotent :
    preprocess_note_references (preprocess_note_references noteIsolationInput) ≠
      preprocess_note_references noteIsolationInput ∧
    remove_extraneous_newlines (remove_extraneous_newlines dewrapInput) ≠
      remove_extraneous_newlines dewrapInput := by
  constructor <;> decide

/-- Atoms from the colon-split loop have nonempty text spanning
exactly their offsets. -/
theorem subPartsAtoms_core (base : Nat) (sentence : Str) :
    ∀ (parts : List Str) (subOffset : Nat) (a : AtomCore),
      a ∈ subPartsAtoms base sentence parts subOffset →
      a.text ≠ [] ∧ a.end_offset = a.start_offset + a.text.length := by
  intro parts
  induction parts with
  | nil => intro subOffset a h; cases h
  | cons sp rest ih =>
    intro subOffset a h
    unfold subPartsAtoms at h
    by_cases he : sp.isEmpty = true
    · rw [if_pos he] at h
      exact ih _ a h
    · rw [if_neg he] at h
      rcases List.mem_cons.mp h with rfl | h'
      · exact ⟨by simpa using he, rfl⟩
      · exact ih _ a h'

/-- Atoms from the per-sentence loop have nonempty text spanning
exactly their offsets. -/
theorem sentenceAtoms_core (pso partStart : Nat) (part : Str) :
    ∀ (sentences : List Str) (sentenceOffset : Nat) (a : AtomCore),
      a ∈ sentenceAtoms pso partStart part sentences sentenceOffset →
      a.text ≠ [] ∧ a.end_offset = a.start_offset + a.text.length := by
  intro sentences
  induction sentences with
  | nil => intro so a h; cases h
  | cons raw rest ih =>
    intro so a h
    unfold sentenceAtoms at h
    by_cases he : (pyStrip raw).isEmpty = true
    · rw [if_pos he] at h
      exact ih _ a h
    · rw [if_neg he] at h
      rcases List.mem_append.mp h with h' | h'
      · by_cases hcolon : (!((pyStrip raw).contains ':')) = true
        · rw [if_pos hcolon] at h'
          rcases List.mem_cons.mp h' with rfl | h''
          · exact ⟨by simpa using he, rfl⟩
          · cases h''
        · rw [if_neg hcolon] at h'
          cases hscan : colonScan (pyStrip raw) 0 0 with
          | some ci =>
            rw [hscan] at h'
            exact subPartsAtoms_core _ _ _ _ a h'
          | none =>
            rw [hscan] at h'
            rcases List.mem_cons.mp h' with rfl | h''
            · exact ⟨by simpa using he, rfl⟩
            · cases h''
      · exact ih _ a h'

/-- Atoms from the part loop have nonempty text spanning exactly their
offsets. -/
theorem decomposeParts_core (tok : Str → List Str) (pso : Nat) (ptext : Str) :
    ∀ (parts : List (Option Str)) (co : Nat) (a : AtomCore),
      a ∈ decomposeParts tok pso ptext parts co →
      a.text ≠ [] ∧ a.end_offset = a.start_offset + a.text.length := by
  intro parts
  induction parts with
  | nil => intro co a h; cases h
  | cons part rest ih =>
    intro co a h
    cases part with
    | none => exact ih _ a h
    | some part =>
      unfold decomposeParts at h
      by_cases he : (part.isEmpty || pyIsSpace part) = true
      · rw [if_pos he] at h
        exact ih _ a h
      · rw [if_neg he] at h
        rcases List.mem_append.mp h with h' | h'
        · by_cases hcit : isCitationFullmatch part = true
          · rw [if_pos hcit] at h'
            by_cases hclean : (pyStrip part).isEmpty = true
            · rw [if_pos hclean] at h'; cases h'
            · rw [if_neg hclean] at h'
              rcases List.mem_cons.mp h' with rfl | h''
              · exact ⟨by simpa using hclean, rfl⟩
              · cases h''
          · rw [if_neg hcit] at h'
            exact sentenceAtoms_core _ _ _ _ _ a h'
        · exact ih _ a h'

/-- Every decomposed atom has a positive-width span equal to the length
of its nonempty text. -/
theorem decompose_paragraph_core (tok : Str → List Str) (ptext : Str) (pso : Nat)
    (a : PAtom) (h : a ∈ decompose_paragraph tok ptext pso) :
    a.text ≠ [] ∧ a.end_offset = a.start_offset + a.text.length := by
  unfold decompose_paragraph at h
  rw [List.mem_map] at h
  obtain ⟨⟨i, core⟩, hmem, rfl⟩ := h
  have hcore : core ∈ decomposeParts tok pso ptext (citationSplit ptext) 0 :=
    List.getElem?_mem (List.mem_enum_iff_getElem?.mp hmem)
  exact decomposeParts_core tok pso ptext _ _ core hcore

/-- Atoms of `paragraphsGo` paragraphs come from `decompose_paragraph`. -/
theorem paragraphsGo_atoms (tok : Str → List Str) (ct : Str) (cso : Nat) :
    ∀ (breaks : List MatchSpan) (cp pid : Nat) (p : Paragraph)
      (_ : p ∈ paragraphsGo tok ct cso true breaks cp pid) (a : PAtom) (_ : a ∈ p.atoms),
      a ∈ decompose_paragraph tok p.text p.start_offset := by
  intro breaks
  induction breaks with
  | nil =>
    intro cp pid p hp a ha
    unfold paragraphsGo at hp
    by_cases he : (pyStrip (ct.drop cp)).isEmpty = true
    · rw [if_pos he] at hp; cases hp
    · rw [if_neg he] at hp
      rcases List.mem_cons.mp hp with rfl | h'
      · simpa using ha
      · cases h'
  | cons b rest ih =>
    intro cp pid p hp a ha
    unfold paragraphsGo at hp
    by_cases he : (pyStrip (pySlice ct cp b.mstart)).isEmpty = true
    · rw [if_pos he] at hp
      exact ih _ _ p hp a ha
    · rw [if_neg he] at hp
      rcases List.mem_cons.mp hp with rfl | h'
      · simpa using ha
      · exact ih _ _ p h' a ha

/-- C3 (amended): every atom emitted for chapter and subsection
paragraphs has `start_offset < end_offset`, with
`end_offset - start_offset` exactly the length of its nonempty text.
(The slice property against the normalized text fails in general:
`atom_slice_counterexample`.) -/
theorem block_atoms_well_formed (tok : Str → List Str) (contentText : Str)
    (cso : Nat) (p : Paragraph)
    (hp : p ∈ find_paragraphs_in_block tok contentText cso true)
    (a : PAtom) (ha : a ∈ p.atoms) :
    a.start_offset < a.end_offset ∧
      a.end_offset = a.start_offset + a.text.length ∧ a.text ≠ [] := by
  unfold find_paragraphs_in_block at hp
  by_cases he : contentText.isEmpty = true
  · rw [if_pos he] at hp; cases hp
  · rw [if_neg he] at hp
    have hdec := paragraphsGo_atoms tok (remove_extraneous_newlines contentText) cso _ _ _ p hp a ha
    obtain ⟨hne, hlen⟩ := decompose_paragraph_core tok p.text p.start_offset a hdec
    refine ⟨?_, hlen, hne⟩
    rw [hlen]
    have : 0 < a.text.length := List.length_pos.mpr hne
    omega

/-- Witness for C3 (amended) on a small two-sentence block. -/
theorem block_atoms_well_formed_witness :
    ∃ p ∈ find_paragraphs_in_block tok0 ("Hello.".data) 5 true, ∃ a ∈ p.atoms,
      a.start_offset < a.end_offset ∧
        a.end_offset = a.start_offset + a.text.length ∧ a.text ≠ [] := by
  have hp : (⟨1, "Hello.".data, 5, 11, [⟨1, "Hello.".data, 5, 11, "sentence"⟩]⟩ : Paragraph) ∈
      find_paragraphs_in_block tok0 ("Hello.".data) 5 true := by decide
  have ha : (⟨1, "Hello.".data, 5, 11, "sentence"⟩ : PAtom) ∈
      (⟨1, "Hello.".data, 5, 11, [⟨1, "Hello.".data, 5, 11, "sentence"⟩]⟩ : Paragraph).atoms := by decide
  exact ⟨_, hp, _, ha, block_atoms_well_formed tok0 ("Hello.".data) 5 _ hp _ ha⟩

/-- C3 (counterexample): for the one-paragraph document `${ }^{1}$`
the leaked digit group becomes a spurious sentence atom whose offsets
point past the text, so the normalized-text slice differs from the
atom text. -/
theorem atom_slice_counterexample :
    ∃ p ∈ find_paragraphs_in_block tok0 noteMarker1 0 true, ∃ a ∈ p.atoms,
      pySlice noteMarker1 a.start_offset a.end_offset ≠ a.text := by decide

/-- Dropping the length of the `takeWhile` prefix is `dropWhile`. -/
theorem drop_takeWhile_length (p : Char → Bool) (s : Str) :
    s.drop (s.takeWhile p).length = s.dropWhile p := by
  have h := List.takeWhile_append_dropWhile p s
  calc s.drop (s.takeWhile p).length
      = (s.takeWhile p ++ s.dropWhile p).drop (s.takeWhile p).length := by rw [h]
    _ = s.dropWhile p := List.drop_left _ _

/-- The citation scan yields nothing on an empty string. -/
theorem finditerCitationGo_nil (f p : Nat) : finditerCitationGo f [] p = [] := by
  cases f <;> rfl

/-- One scan step of the citation `finditer` loop at a match. -/
theorem finditerCitationGo_match (fuel : Nat) (c : Char) (cs : Str) (pos k : Nat)
    (g2 : Option Str) (h : matchCitationAt (c :: cs) = some (k, g2)) :
    finditerCitationGo (fuel + 1) (c :: cs) pos =
      (⟨pos, pos + k⟩, g2) :: finditerCitationGo fuel ((c :: cs).drop k) (pos + k) := by
  conv_lhs => unfold finditerCitationGo
  rw [h]

/-- When the whole paragraph matches the citation pattern once,
`re.split` yields empty text, the match, its group 2, and empty text. -/
theorem citationSplit_of_fullmatch (text : Str) (g2 : Option Str)
    (h : matchCitationAt text = some (text.length, g2)) (hne : text ≠ []) :
    citationSplit text = [some [], some text, g2, some []] := by
  obtain ⟨c, cs, rfl⟩ : ∃ c cs, text = c :: cs := by
    cases text with
    | nil => exact absurd rfl hne
    | cons c cs => exact ⟨c, cs, rfl⟩
  unfold citationSplit finditerCitation
  rw [finditerCitationGo_match ((c :: cs).length) c cs 0 _ g2 h]
  rw [List.drop_length, finditerCitationGo_nil]
  unfold splitFromMatches
  unfold splitFromMatches
  simp [pySlice]

/-- A string finds itself at position 0. -/
theorem strFind_self (c : Char) (cs : Str) : strFind (c :: cs) (c :: cs) 0 = some 0 := by
  unfold strFind
  rw [List.drop_zero]
  unfold strFindGo
  rw [List.isPrefixOf_iff_prefix.mpr (List.prefix_refl _)]
  rfl

/-- C7 (amended): a paragraph whose entire text matches the citation
pattern through a non-leaking alternative (the parenthesized or
bracketed form, whose group 2 does not participate) decomposes into
exactly one atom: the stripped text, typed `citation`.  The note-marker
alternative is excluded: its inner digit group leaks an extra part
(`citation_only_paragraph_counterexample`). -/
theorem decompose_fullmatch_single_citation (tok : Str → List Str) (text : Str)
    (off : Nat) (h : matchCitationAt text = some (text.length, none)) :
    (decompose_paragraph tok text off).map (fun a => (a.text, a.type)) =
      [(pyStrip text, "citation")] := by
  have hne : text ≠ [] := by
    intro he
    rw [he] at h
    exact absurd h (by decide)
  -- the matching alternative starts with '(' or '[': a non-whitespace head
  have hr := h
  unfold matchCitationAt at hr
  simp only [drop_takeWhile_length] at hr
  obtain ⟨c0, hc0, hc0ws⟩ : ∃ c0, (text.dropWhile isPyWs).head? = some c0 ∧
      isPyWs c0 = false := by
    split at hr
    · rename_i heq
      exact ⟨'(', heq, by decide⟩
    · rename_i heq
      exact ⟨'[', heq, by decide⟩
    · exfalso
      cases hm : matchNoteAt (text.dropWhile isPyWs) with
      | none => rw [hm] at hr; exact absurd hr (by simp)
      | some p => rw [hm] at hr; simp at hr
    · exact absurd hr (by simp)
  have hc0mem : c0 ∈ text.dropWhile isPyWs := by
    cases hdw : text.dropWhile isPyWs with
    | nil => rw [hdw] at hc0; cases hc0
    | cons a l =>
      rw [hdw] at hc0
      injection hc0 with hh
      rw [← hh]
      exact List.mem_cons_self a l
  have hTall : text.all isPyWs = false := by
    by_contra hcon
    have hall : text.all isPyWs = true := by
      cases hba : text.all isPyWs
      · exact absurd hba hcon
      · rfl
    have hnil : text.dropWhile isPyWs = [] := by
      rw [List.dropWhile_eq_nil_iff]
      intro x hx
      exact List.all_eq_true.mp hall x hx
    rw [hnil] at hc0mem
    cases hc0mem
  have hTs : pyIsSpace text = false := by
    unfold pyIsSpace
    rw [hTall, Bool.and_false]
  have hTe : text.isEmpty = false := by
    cases text with
    | nil => exact absurd rfl hne
    | cons a l => rfl
  have hstrip : pyStrip text ≠ [] := by
    intro hcon
    unfold pyStrip pyRStrip pyLStrip at hcon
    have h1 : ((text.dropWhile isPyWs).reverse.dropWhile isPyWs) = [] := by
      have h2 := congrArg List.reverse hcon
      rwa [List.reverse_reverse, List.reverse_nil] at h2
    have h2 := List.dropWhile_eq_nil_iff.mp h1 c0 (List.mem_reverse.mpr hc0mem)
    rw [hc0ws] at h2
    cases h2
  have hsplit := citationSplit_of_fullmatch text none h hne
  have hfull : isCitationFullmatch text = true := by
    unfold isCitationFullmatch
    rw [h]
    exact beq_self_eq_true _
  obtain ⟨c, cs, hccs⟩ : ∃ c cs, text = c :: cs := by
    cases text with
    | nil => exact absurd rfl hne
    | cons c cs => exact ⟨c, cs, rfl⟩
  have hsf : strFind text text 0 = some 0 := by rw [hccs]; exact strFind_self c cs
  have hcleanE : (pyStrip text).isEmpty = false := by
    cases hps : pyStrip text with
    | nil => exact absurd hps hstrip
    | cons a l => rfl
  unfold decompose_paragraph
  rw [hsplit]
  simp [decomposeParts, hTe, hTs, hsf, hfull, hcleanE]

/-- Witness for C7 (amended): the paragraph `(Smith 2020)` yields the
single citation atom. -/
theorem decompose_fullmatch_single_citation_witness :
    (decompose_paragraph tok0 ("(Smith 2020)".data) 7).map (fun a => (a.text, a.type)) =
      [(pyStrip ("(Smith 2020)".data), "citation")] :=
  decompose_fullmatch_single_citation tok0 ("(Smith 2020)".data) 7 (by decide)

/-- C7 (counterexample): the paragraph `${ }^{1}$` full-matches the
citation pattern yet decomposes into a citation atom followed by a
spurious sentence atom holding the leaked digit group. -/
theorem citation_only_paragraph_counterexample :
    isCitationFullmatch noteMarker1 = true ∧
      (decompose_paragraph tok0 noteMarker1 0).map (fun a => a.type) =
        ["citation", "sentence"] := by decide

/-- A `#`-headed string has a nonempty `#` run. -/
theorem takeWhile_hash_pos (r1 : Str) (h : r1.head? = some '#') :
    1 ≤ (r1.takeWhile (· == '#')).length := by
  cases r1 with
  | nil => cases h
  | cons a l =>
    injection h with h
    subst h
    rw [List.takeWhile_cons]
    simp

/-- Every numbered-heading match consumes at least one character. -/
theorem matchMainAt_pos (cs : Str) (k : Nat) (h : matchMainAt cs = some k) : 1 ≤ k := by
  unfold matchMainAt at h
  simp only [] at h
  split at h
  · rename_i heq
    have hhash := takeWhile_hash_pos _ heq
    split at h
    · rw [Option.map_eq_some'] at h
      obtain ⟨a, ha, hk⟩ := h
      omega
    · split at h
      · rw [Option.map_eq_some'] at h
        obtain ⟨a, ha, hk⟩ := h
        omega
      · cases h
  · cases h

/-- Fuel irrelevance of the heading scan above the string length. -/
theorem finditerMainGo_fuel (n : Nat) : ∀ (cs : Str) (pos : Nat) (a : Bool) (f₁ f₂ : Nat),
    cs.length ≤ n → cs.length < f₁ → cs.length < f₂ →
    finditerMainGo f₁ cs pos a = finditerMainGo f₂ cs pos a := by
  induction n with
  | zero =>
    intro cs pos a f₁ f₂ hn h1 h2
    have : cs = [] := List.length_eq_zero.mp (Nat.le_zero.mp hn)
    subst this
    cases f₁ with
    | zero => omega
    | succ g₁ => cases f₂ with
      | zero => omega
      | succ g₂ => rfl
  | succ m ih =>
    intro cs pos a f₁ f₂ hn h1 h2
    cases cs with
    | nil =>
      cases f₁ with
      | zero => omega
      | succ g₁ => cases f₂ with
        | zero => omega
        | succ g₂ => rfl
    | cons c rest =>
      cases f₁ with
      | zero => omega
      | succ g₁ => cases f₂ with
        | zero => omega
        | succ g₂ =>
          unfold finditerMainGo
          by_cases ha : a = true
      
          · rw [ha]
            simp only [if_true]
            cases hm : matchMainAt (c :: rest) with
            | some k =>
              dsimp only
              have hk := matchMainAt_pos _ _ hm
              have hlen : ((c :: rest).drop k).length ≤ m := by
                rw [List.length_drop]
                simp only [List.length_cons] at hn ⊢
                omega
              rw [ih ((c :: rest).drop k) (pos + k) _ g₁ g₂ hlen (by rw [List.length_drop]; simp only [List.length_cons] at h1 ⊢; omega) (by rw [List.length_drop]; simp only [List.length_cons] at h2 ⊢; omega)]
            | none =>
              dsimp only
              have hlen : rest.length ≤ m := by simp only [List.length_cons] at hn; omega
              rw [ih rest (pos + 1) _ g₁ g₂ hlen (by simp only [List.length_cons] at h1; omega) (by simp only [List.length_cons] at h2; omega)]
          · have ha' : a = false := by cases a; rfl; exact absurd rfl ha
            rw [ha']
            simp only [Bool.false_eq_true, if_false]
            have hlen : rest.length ≤ m := by simp only [List.length_cons] at hn; omega
            rw [ih rest (pos + 1) _ g₁ g₂ hlen (by simp only [List.length_cons] at h1; omega) (by simp only [List.length_cons] at h2; omega)]

/-- Any sufficient fuel computes `finditerRun`. -/
theorem finditerRun_eq (f : Nat) (cs : Str) (pos : Nat) (a : Bool) (h : cs.length < f) :
    finditerMainGo f cs pos a = finditerRun cs pos a :=
  finditerMainGo_fuel cs.length cs pos a f (cs.length + 1) (Nat.le_refl _) h (Nat.lt_succ_self _)

/-- The `re.finditer` wrapper is the canonical run. -/
theorem finditerMain_eq_run (text : Str) : finditerMain text = finditerRun text 0 true := rfl

/-- The scan of an empty string is empty. -/
theorem finditerRun_nil (pos : Nat) (a : Bool) : finditerRun [] pos a = [] := rfl

/-- One scan step at a non-line-start position. -/
theorem finditerRun_skip (c : Char) (cs : Str) (pos : Nat) :
    finditerRun (c :: cs) pos false = finditerRun cs (pos + 1) (c == '\n') := by
  unfold finditerRun
  conv_lhs => unfold finditerMainGo
  simp only [Bool.false_eq_true, if_false]
  exact finditerRun_eq _ _ _ _ (Nat.lt_succ_self _)

/-- One scan step at a line start where the pattern fails. -/
theorem finditerRun_nomatch (c : Char) (cs : Str) (pos : Nat)
    (h : matchMainAt (c :: cs) = none) :
    finditerRun (c :: cs) pos true = finditerRun cs (pos + 1) (c == '\n') := by
  unfold finditerRun
  conv_lhs => unfold finditerMainGo
  simp only [if_true]
  rw [h]
  exact finditerRun_eq _ _ _ _ (Nat.lt_succ_self _)

/-- One scan step at a line start where the pattern matches. -/
theorem finditerRun_match (c : Char) (cs : Str) (pos k : Nat)
    (h : matchMainAt (c :: cs) = some k) :
    finditerRun (c :: cs) pos true =
      ⟨pos, pos + k⟩ :: finditerRun ((c :: cs).drop k) (pos + k)
        (((c :: cs).take k).getLast? == some '\n') := by
  unfold finditerRun
  conv_lhs => unfold finditerMainGo
  simp only [if_true]
  rw [h]
  dsimp only
  have hk := matchMainAt_pos _ _ h
  rw [finditerRun_eq ((c :: cs).length) _ _ _ (by rw [List.length_drop]; simp only [List.length_cons]; omega)]
  rfl

/-- The heading pattern fails on a head that is neither whitespace nor `#`. -/
theorem matchMainAt_head_none (c : Char) (cs : Str) (h1 : isPyWs c = false)
    (h2 : (c == '#') = false) : matchMainAt (c :: cs) = none := by
  unfold matchMainAt
  rw [List.takeWhile_cons, h1]
  simp only [if_false, List.length_nil, List.drop_zero, List.head?_cons]
  split
  · rename_i heq
    injection heq with heq
    rw [heq] at h2
    simp at h2
  · rfl

/-- The scan crosses a run of filler characters without matching. -/
theorem finditerRun_repl (x : Char) (hx1 : isPyWs x = false) (hx2 : (x == '#') = false) :
    ∀ (n : Nat) (cs : Str) (pos : Nat) (a : Bool),
    finditerRun (x :: (List.replicate n x ++ cs)) pos a = finditerRun cs (pos + n + 1) false := by
  have hnl : (x == '\n') = false := by
    cases hbe : x == '\n'
    · rfl
    · rw [beq_iff_eq] at hbe
      rw [hbe] at hx1
      exact absurd hx1 (by decide)
  intro n
  induction n with
  | zero =>
    intro cs pos a
    simp only [List.replicate_zero, List.nil_append]
    cases a with
    | false => rw [finditerRun_skip, hnl]
    | true => rw [finditerRun_nomatch _ _ _ (matchMainAt_head_none x cs hx1 hx2), hnl]
  | succ m ih =>
    intro cs pos a
    rw [List.replicate_succ, List.cons_append]
    have step : finditerRun (x :: (x :: (List.replicate m x ++ cs))) pos a =
        finditerRun (x :: (List.replicate m x ++ cs)) (pos + 1) false := by
      cases a with
      | false => rw [finditerRun_skip, hnl]
      | true => rw [finditerRun_nomatch _ _ _ (matchMainAt_head_none x _ hx1 hx2), hnl]
    rw [step, ih]
    congr 1
    omega

/-- The heading match at `# 1` before filler: three characters. -/
theorem matchMainAt_seg1 (cs : Str) :
    matchMainAt ('#' :: ' ' :: '1' :: '\n' :: 'x' :: cs) = some 3 := by
  simp [matchMainAt, trailingWsEnd, isPyWs, isDigitChar, List.takeWhile_cons]

/-- The heading match at `\n# 2` before filler: four characters. -/
theorem matchMainAt_seg2 (cs : Str) :
    matchMainAt ('\n' :: '#' :: ' ' :: '2' :: '\n' :: 'x' :: cs) = some 4 := by
  simp [matchMainAt, trailingWsEnd, isPyWs, isDigitChar, List.takeWhile_cons]

/-- The heading match at `\n# 3` before the blank line and `Notes`:
the greedy `\s*$` backtracks to the last newline of the run. -/
theorem matchMainAt_seg3 (cs : Str) :
    matchMainAt ('\n' :: '#' :: ' ' :: '3' :: '\n' :: '\n' :: '\n' :: 'N' :: cs) = some 6 := by
  simp [matchMainAt, trailingWsEnd, isPyWs, isDigitChar, List.takeWhile_cons, List.findIdx?]

/-- No heading match on a newline followed by `N`. -/
theorem matchMainAt_nl_notes (cs : Str) :
    matchMainAt ('\n' :: 'N' :: cs) = none := by
  simp [matchMainAt, isPyWs, List.takeWhile_cons]

/-- No heading match on a blank line followed by `N`. -/
theorem matchMainAt_nl_nl_notes (cs : Str) :
    matchMainAt ('\n' :: '\n' :: 'N' :: cs) = none := by
  simp [matchMainAt, isPyWs, List.takeWhile_cons]

/-- The counterexample document in head-exposed form. -/
theorem c9Text_cons : c9Text =
    '#' :: ' ' :: '1' :: '\n' :: 'x' :: (List.replicate 3999 'x' ++
    ('\n' :: '\n' :: '#' :: ' ' :: '2' :: '\n' :: 'x' :: (List.replicate 2999 'x' ++
    ('\n' :: '\n' :: '#' :: ' ' :: '3' :: '\n' :: '\n' :: '\n' :: 'N' :: 'o' :: 't' :: 'e' :: 's' :: '\n' ::
    'y' :: (List.replicate 1199 'y' ++ ['\n']))))) := by
  unfold c9Text c9seg1 c9fill1 c9seg2 c9fill2 c9seg3 c9body
  have e1 : List.replicate 4000 'x' = 'x' :: List.replicate 3999 'x' := by
    rw [show (4000 : Nat) = 3999 + 1 from rfl]
    exact List.replicate_succ _ _
  have e2 : List.replicate 3000 'x' = 'x' :: List.replicate 2999 'x' := by
    rw [show (3000 : Nat) = 2999 + 1 from rfl]
    exact List.replicate_succ _ _
  have e3 : List.replicate 1200 'y' = 'y' :: List.replicate 1199 'y' := by
    rw [show (1200 : Nat) = 1199 + 1 from rfl]
    exact List.replicate_succ _ _
  rw [e1, e2, e3]
  rw [show ("# 1\n".data) = ['#', ' ', '1', '\n'] from by decide,
      show ("\n\n# 2\n".data) = ['\n', '\n', '#', ' ', '2', '\n'] from by decide,
      show ("\n\n# 3\n\n\nNotes\n".data) = ['\n', '\n', '#', ' ', '3', '\n', '\n', '\n', 'N', 'o', 't', 'e', 's', '\n'] from by decide]
  simp only [List.cons_append, List.append_assoc, List.nil_append]

/-- The scan across the first chapter block. -/
theorem run_block1 (n : Nat) (cs : Str) (pos : Nat) :
    finditerRun ('#' :: ' ' :: '1' :: '\n' :: 'x' :: (List.replicate n 'x' ++ cs)) pos true =
      ⟨pos, pos + 3⟩ :: finditerRun cs (pos + n + 5) false := by
  rw [finditerRun_match _ _ _ _ (matchMainAt_seg1 _)]
  dsimp only [List.drop, List.take]
  rw [show (List.getLast? ['#', ' ', '1'] == some '\n') = false from by decide]
  rw [finditerRun_skip]
  rw [finditerRun_repl 'x' (by decide) (by decide)]
  congr 2
  omega

/-- The scan across a subsequent chapter block. -/
theorem run_block2 (n : Nat) (cs : Str) (pos : Nat) :
    finditerRun ('\n' :: '\n' :: '#' :: ' ' :: '2' :: '\n' :: 'x' ::
        (List.replicate n 'x' ++ cs)) pos false =
      ⟨pos + 1, pos + 5⟩ :: finditerRun cs (pos + n + 7) false := by
  rw [finditerRun_skip]
  rw [show ('\n' == '\n') = true from rfl]
  rw [finditerRun_match _ _ _ _ (matchMainAt_seg2 _)]
  dsimp only [List.drop, List.take]
  rw [show (List.getLast? ['\n', '#', ' ', '2'] == some '\n') = false from by decide]
  rw [finditerRun_skip]
  rw [finditerRun_repl 'x' (by decide) (by decide)]
  have h1 : pos + 1 + 4 = pos + 5 := by omega
  have h2 : pos + 1 + 4 + 1 + n + 1 = pos + n + 7 := by omega
  rw [h1, h2]

/-- The scan across the final chapter, the `Notes` heading and the body. -/
theorem run_block3 (m : Nat) (pos : Nat) :
    finditerRun ('\n' :: '\n' :: '#' :: ' ' :: '3' :: '\n' :: '\n' :: '\n' :: 'N' :: 'o' ::
        't' :: 'e' :: 's' :: '\n' :: 'y' :: (List.replicate m 'y' ++ ['\n'])) pos false =
      [⟨pos + 1, pos + 7⟩] := by
  rw [finditerRun_skip]
  rw [show ('\n' == '\n') = true from rfl]
  rw [finditerRun_match _ _ _ _ (matchMainAt_seg3 _)]
  dsimp only [List.drop, List.take]
  rw [show (List.getLast? ['\n', '#', ' ', '3', '\n', '\n'] == some '\n') = true from by decide]
  rw [finditerRun_nomatch _ _ _ (matchMainAt_nl_notes _)]
  rw [show ('\n' == '\n') = true from rfl]
  rw [finditerRun_nomatch _ _ _ (matchMainAt_head_none 'N' _ (by decide) (by decide))]
  rw [show ('N' == '\n') = false from by decide]
  rw [finditerRun_skip, show ('o' == '\n') = false from by decide]
  rw [finditerRun_skip, show ('t' == '\n') = false from by decide]
  rw [finditerRun_skip, show ('e' == '\n') = false from by decide]
  rw [finditerRun_skip, show ('s' == '\n') = false from by decide]
  rw [finditerRun_skip, show ('\n' == '\n') = true from rfl]
  rw [finditerRun_repl 'y' (by decide) (by decide)]
  rw [finditerRun_skip]
  rw [finditerRun_nil]

/-- The three numbered-heading matches of the counterexample document;
the last one ends at 7017, one character past the `Notes` match start. -/
theorem finditerMain_c9Text :
    finditerMain c9Text = [⟨0, 3⟩, ⟨4005, 4009⟩, ⟨7011, 7017⟩] := by
  rw [finditerMain_eq_run, c9Text_cons]
  rw [run_block1, run_block2, run_block3]

/-- Distribution of `drop` over an append. -/
theorem drop_append_all (l₁ l₂ : List Char) (n : Nat) :
    (l₁ ++ l₂).drop n = l₁.drop n ++ l₂.drop (n - l₁.length) := by
  induction l₁ generalizing n with
  | nil => simp
  | cons a l ih =>
    cases n with
    | zero => simp
    | succ m =>
      simp only [List.cons_append, List.drop_succ_cons, List.length_cons, ih m,
        Nat.succ_sub_succ]

/-- The suffix of the document from the `Notes` match start. -/
theorem c9Text_drop_7016 : c9Text.drop 7016 =
    '\n' :: '\n' :: 'N' :: 'o' :: 't' :: 'e' :: 's' :: '\n' ::
      ('y' :: (List.replicate 1199 'y' ++ ['\n'])) := by
  have hL1 : c9seg1.length = 4 := by decide
  have hL2 : c9fill1.length = 4000 := by unfold c9fill1; exact List.length_replicate _ _
  have hL3 : c9seg2.length = 6 := by decide
  have hL4 : c9fill2.length = 3000 := by unfold c9fill2; exact List.length_replicate _ _
  have d1 : c9seg1.drop 7016 = [] := List.drop_eq_nil_of_le (by rw [hL1]; norm_num)
  have d2 : c9fill1.drop 7012 = [] := List.drop_eq_nil_of_le (by rw [hL2]; norm_num)
  have d3 : c9seg2.drop 3012 = [] := List.drop_eq_nil_of_le (by rw [hL3]; norm_num)
  have d4 : c9fill2.drop 3006 = [] := List.drop_eq_nil_of_le (by rw [hL4]; norm_num)
  unfold c9Text
  simp only [List.append_assoc]
  rw [drop_append_all, d1, List.nil_append, hL1]
  norm_num
  rw [drop_append_all, d2, List.nil_append, hL2]
  norm_num
  rw [drop_append_all, d3, List.nil_append, hL3]
  norm_num
  rw [drop_append_all, d4, List.nil_append, hL4]
  norm_num
  rw [drop_append_all]
  rw [show c9seg3.drop 6 = ['\n', '\n', 'N', 'o', 't', 'e', 's', '\n'] from by decide]
  rw [show c9seg3.length = 14 from by decide]
  norm_num
  rw [show c9body = 'y' :: List.replicate 1199 'y' from by
    unfold c9body
    rw [show (1200 : Nat) = 1199 + 1 from rfl]
    exact List.replicate_succ _ _]
  simp only [List.drop_zero, List.cons_append, List.nil_append]

/-- The document length. -/
theorem c9Text_length : c9Text.length = 8225 := by
  unfold c9Text
  simp only [List.length_append, List.length_cons, List.length_nil]
  rw [show c9seg1.length = 4 from by decide, show c9seg2.length = 6 from by decide,
      show c9seg3.length = 14 from by decide,
      show c9fill1.length = 4000 from by unfold c9fill1; exact List.length_replicate _ _,
      show c9fill2.length = 3000 from by unfold c9fill2; exact List.length_replicate _ _,
      show c9body.length = 1200 from by unfold c9body; exact List.length_replicate _ _]

/-- The `Notes` match slice. -/
theorem c9_title_slice : pySlice c9Text 7016 7023 = ['\n', '\n', 'N', 'o', 't', 'e', 's'] := by
  unfold pySlice
  have h := List.take_drop 7016 7 c9Text
  rw [show (7016 + 7 : Nat) = 7023 from rfl] at h
  rw [← h, c9Text_drop_7016]
  rfl

/-- The notes body slice, from after the heading newline to the end. -/
theorem c9_content_slice : pySlice c9Text 7024 8225 =
    'y' :: (List.replicate 1199 'y' ++ ['\n']) := by
  unfold pySlice
  rw [List.take_of_length_le (by rw [c9Text_length])]
  have h := List.drop_drop 8 7016 c9Text
  rw [show (7016 + 8 : Nat) = 7024 from rfl] at h
  rw [← h, c9Text_drop_7016]
  rfl

/-- No numbered-heading match after the `Notes` match start. -/
theorem finditerMain_c9_after : finditerMain (c9Text.drop 7016) = [] := by
  rw [c9Text_drop_7016, finditerMain_eq_run]
  rw [finditerRun_nomatch _ _ _ (matchMainAt_nl_nl_notes _)]
  rw [show ('\n' == '\n') = true from rfl]
  rw [finditerRun_nomatch _ _ _ (matchMainAt_nl_notes _)]
  rw [show ('\n' == '\n') = true from rfl]
  rw [finditerRun_nomatch _ _ _ (matchMainAt_head_none 'N' _ (by decide) (by decide))]
  rw [show ('N' == '\n') = false from by decide]
  rw [finditerRun_skip, show ('o' == '\n') = false from by decide]
  rw [finditerRun_skip, show ('t' == '\n') = false from by decide]
  rw [finditerRun_skip, show ('e' == '\n') = false from by decide]
  rw [finditerRun_skip, show ('s' == '\n') = false from by decide]
  rw [finditerRun_skip, show ('\n' == '\n') = true from rfl]
  rw [finditerRun_repl 'y' (by decide) (by decide)]
  rw [finditerRun_skip]
  rw [finditerRun_nil]

/-- Stripping the body slice leaves the 1200 filler characters. -/
theorem c9_strip_body : pyStrip ('y' :: (List.replicate 1199 'y' ++ ['\n'])) =
    'y' :: List.replicate 1199 'y' := by
  unfold pyStrip pyLStrip pyRStrip
  rw [List.dropWhile_cons, if_neg (by decide)]
  simp only [List.reverse_cons, List.reverse_append, List.reverse_replicate,
    List.reverse_nil, List.nil_append, List.cons_append, List.append_assoc]
  rw [List.dropWhile_cons, if_pos (by decide)]
  rw [show List.replicate 1199 'y' = 'y' :: List.replicate 1198 'y' from by
    rw [show (1199 : Nat) = 1198 + 1 from rfl]
    exact List.replicate_succ _ _]
  rw [List.cons_append, List.dropWhile_cons, if_neg (by decide)]
  simp only [List.reverse_cons, List.reverse_append, List.reverse_replicate,
    List.reverse_nil, List.nil_append, List.cons_append, List.append_assoc]
  rw [show List.replicate 1198 'y' ++ ['y'] = List.replicate 1199 'y' from by
    rw [show (1199 : Nat) = 1198 + 1 from rfl]
    exact (List.replicate_succ' _ _).symm]
  rw [show ('y' : Char) :: List.replicate 1198 'y' = List.replicate 1199 'y' from by
    rw [show (1199 : Nat) = 1198 + 1 from rfl]
    exact (List.replicate_succ _ _).symm]

/-- The end of the last numbered-heading match. -/
theorem minEndStartOf_c9 : minEndStartOf c9Text = 7017 := by
  unfold minEndStartOf
  rw [finditerMain_c9Text]
  rfl

/-- The document has three numbered chapters. -/
theorem numChaptersOf_c9 : numChaptersOf c9Text = 3 := by
  unfold numChaptersOf
  rw [finditerMain_c9Text]
  rfl

/-- Content starts one character after the heading newline. -/
theorem skipOneNl_c9 : skipOneNl c9Text 7023 = 7024 := by
  unfold skipOneNl
  have h := List.drop_drop 7 7016 c9Text
  rw [show (7016 + 7 : Nat) = 7023 from rfl] at h
  rw [← h, c9Text_drop_7016]
  rfl

/-- The match title lowercases to `notes`. -/
theorem title_c9 : lowerStr (matchHeadingTitle c9Text c9m) = "notes".data := by
  unfold matchHeadingTitle c9m
  dsimp only
  rw [c9_title_slice]
  decide

/-- All four document-level conditions hold for the `Notes` match. -/
theorem notesDocLevelOk_c9 : notesDocLevelOk c9Text c9EndMatches c9m = true := by
  unfold notesDocLevelOk c9EndMatches c9m
  dsimp only
  rw [c9Text_length, numChaptersOf_c9, finditerMain_c9_after, skipOneNl_c9]
  dsimp only [List.find?]
  rw [show (decide (7016 < 7016)) = false from by decide]
  rw [show ((Option.map (fun x => x.mstart) (none : Option MatchSpan)).getD 8225) = 8225 from rfl]
  rw [c9_content_slice, c9_strip_body]
  rw [show ('y' :: List.replicate 1199 'y').length = 1200 from by
    rw [List.length_cons, List.length_replicate]]
  decide

/-- Yet `find_end_sections` returns no section: the match starts one
character before `min_end_start`. -/
theorem find_end_sections_c9 : find_end_sections c9Text c9EndMatches = [] := by
  unfold find_end_sections validEndMatches c9EndMatches
  rw [List.filter_cons]
  rw [minEndStartOf_c9]
  norm_num
  rfl

/-- C9 (counterexample): a document where the `Notes` heading satisfies
all four conditions of the claim — last 15% of the text, three
numbered chapters before it, none after it, body over 1000
characters — yet `find_end_sections` omits it, because its match
begins one character before the end of the last chapter-heading match
(`min_end_start`), a fifth condition the claim does not state. -/
theorem notes_end_section_counterexample :
    100 * (c9Text.length - c9m.mstart) ≤ 15 * c9Text.length ∧
    3 ≤ numChaptersOf c9Text ∧
    finditerMain (c9Text.drop c9m.mstart) = [] ∧
    1000 < (pyStrip (pySlice c9Text (skipOneNl c9Text c9m.mend)
      (((c9EndMatches.find? (fun fm => c9m.mstart < fm.mstart)).map (·.mstart)).getD c9Text.length))).length ∧
    lowerStr (matchHeadingTitle c9Text c9m) = "notes".data ∧
    c9m ∈ c9EndMatches ∧
    notesDocLevelOk c9Text c9EndMatches c9m = true ∧
    find_end_sections c9Text c9EndMatches = [] := by
  refine ⟨?_, ?_, ?_, ?_, title_c9, by decide, notesDocLevelOk_c9, find_end_sections_c9⟩
  · rw [c9Text_length]
    norm_num [c9m]
  · rw [numChaptersOf_c9]
  · rw [show c9m.mstart = 7016 from rfl]
    exact finditerMain_c9_after
  · rw [show c9m.mend = 7023 from rfl, skipOneNl_c9, c9Text_length]
    rw [show ((c9EndMatches.find? (fun fm => c9m.mstart < fm.mstart)).map (·.mstart)).getD 8225 = 8225 from by decide]
    rw [c9_content_slice, c9_strip_body]
    rw [List.length_cons, List.length_replicate]
    norm_num

/-- Section start offsets are the match starts. -/
theorem buildEndSections_starts (text : Str) : ∀ l : List MatchSpan,
    (buildEndSections text l).map (fun s => s.start_offset) = l.map (fun m => m.mstart) := by
  intro l
  induction l with
  | nil => rfl
  | cons m rest ih =>
    unfold buildEndSections
    rw [List.map_cons, List.map_cons, ih]

/-- C9 (amended): a `Notes` end-pattern match becomes an end section
iff it starts at or after the end of the last numbered-heading match
AND the four document-level conditions hold (position in the last 15%,
at least three chapters, no subsequent chapter, body over 1000
characters, as computed by `notesDocLevelOk`).  The four conditions
alone are not sufficient (`notes_end_section_counterexample`). -/
theorem find_end_sections_notes_characterization (text : Str) (endMatches : List MatchSpan)
    (m : MatchSpan) (hmem : m ∈ endMatches)
    (hnotes : lowerStr (matchHeadingTitle text m) = "notes".data)
    (hnodup : (endMatches.map (fun m => m.mstart)).Nodup) :
    m.mstart ∈ (find_end_sections text endMatches).map (fun s => s.start_offset) ↔
      minEndStartOf text ≤ m.mstart ∧ notesDocLevelOk text endMatches m = true := by
  unfold find_end_sections
  rw [buildEndSections_starts]
  have hbeq : (lowerStr (matchHeadingTitle text m) == "notes".data) = true := by
    rw [beq_iff_eq]
    exact hnotes
  constructor
  · intro h
    obtain ⟨m', hm', heq⟩ := List.mem_map.mp h
    obtain ⟨hm'mem, hp⟩ := List.mem_filter.mp hm'
    have hmm : m' = m := List.inj_on_of_nodup_map hnodup hm'mem hmem heq
    rw [hmm] at hp
    rw [hbeq] at hp
    simp only [if_true] at hp
    split at hp
    · rename_i hmin
      exact ⟨hmin, hp⟩
    · cases hp
  · rintro ⟨hmin, hok⟩
    have hp : (fun mm => if minEndStartOf text ≤ mm.mstart then
        (if lowerStr (matchHeadingTitle text mm) == "notes".data then
          notesDocLevelOk text endMatches mm else true) else false) m = true := by
      dsimp only
      rw [if_pos hmin, hbeq]
      simp only [if_true]
      exact hok
    exact List.mem_map_of_mem _ (List.mem_filter.mpr ⟨hmem, hp⟩)

/-- Witness for C9 (amended) on a small document whose lone `Notes`
heading fails the document-level checks. -/
theorem find_end_sections_notes_characterization_witness :
    ((⟨0, 5⟩ : MatchSpan).mstart ∈
        (find_end_sections c9SmallText c9SmallEnd).map (fun s => s.start_offset) ↔
      minEndStartOf c9SmallText ≤ (⟨0, 5⟩ : MatchSpan).mstart ∧
        notesDocLevelOk c9SmallText c9SmallEnd ⟨0, 5⟩ = true) :=
  find_end_sections_notes_characterization c9SmallText c9SmallEnd ⟨0, 5⟩ (by decide)
    (by decide) (by decide)
